import Mathlib

/-!
# Verification of the PyDistributed event-source storage engine

Shallow embedding of `src/pydistributed/event_source/{index_file,log_file,eventsource}.py`.

Files are modelled at the record / index-entry level: a `.log` file is the list
of records it contains (the byte stream is exactly the concatenation of
20-byte metadata blocks followed by payloads, so byte positions are recovered
by the arithmetic `recSize`/`recStart` below), and a `.index` file is the list
of its 8-byte `(relative_offset, physical_position)` entries.  Machine
integers are `Nat`/`Int`; Python's `-1` sentinels and possibly-negative
index arithmetic are kept on `Int`.  Exceptions are an explicit `Err` type;
loops whose termination is in question (`IndexFile.search`'s binary search,
`EventSource.write`'s rollover loop) take explicit fuel and return `none`
when the fuel runs out, so non-termination of the Python loop is expressible
as `∀ fuel, ... = none`.
-/

set_option linter.unusedVariables false

namespace PyDistributed

/-- Exceptions raised by the engine (`exceptions.py` classes, Python built-ins
`ValueError`, `FileNotFoundError`, `struct.error`, `IndexError`). -/
inductive Err where
  | valueError
  | logSizeExceeded
  | couldNotFindOffset
  | offsetMissingInIndex
  | fileNotFound
  | structError
  | indexError
  deriving DecidableEq

/-- One record of a `.log` file: 20 bytes of metadata
(`offset (u64)`, `timestamp_ns (u64)`, `payload_size (u32)`) followed by the
payload bytes.  The stored `payload_size` always equals `payload.length`
because `LogFile.write` packs `len(payload)`. -/
structure Record where
  offset : Nat
  timestamp : Nat
  payload : List Nat
  deriving DecidableEq

/-- One 8-byte entry of a `.index` file: `(relative_offset, physical_position)`. -/
structure IndexEntry where
  rel : Nat
  pos : Nat
  deriving DecidableEq

/-- `META_DATA_SIZE = 20`. -/
def metaDataSize : Nat := 20

/-- `MAX_MESSAGE_SIZE = 1 << 16`. -/
def maxMessageSize : Nat := 65536

/-- On-disk size of a record: metadata plus payload. -/
def recSize (r : Record) : Nat := metaDataSize + r.payload.length

/-- One segment of the store: the pair of files `<base>.log` / `<base>.index`.
`logCreated` / `indexCreated` record whether the files exist on disk (they are
created lazily by the first append that opens them with mode `"ab+"`). -/
structure Seg where
  base : Nat
  records : List Record
  index : List IndexEntry
  logCreated : Bool
  indexCreated : Bool
  deriving DecidableEq

/-- Current byte size of a segment's `.log` file. -/
def logSize (s : Seg) : Nat := (s.records.map recSize).sum

/-- Byte position of the start of the `i`-th record of a `.log` file. -/
def recStart (rs : List Record) (i : Nat) : Nat := ((rs.take i).map recSize).sum

/-- `f.seek(target); ...` : the suffix of the record list that starts at byte
position `target`, walking record by record from byte position `cur`.
Positions strictly before `target` are skipped; in every clean log the target
is the start of a record, so this is exactly Python's seek-then-parse. -/
def dropToPos (target : Nat) : List Record → Nat → List Record
  | [], _ => []
  | r :: rs, cur => if cur < target then dropToPos target rs (cur + recSize r) else r :: rs

/-- The default (non-existent-file) segment used when a read opens a segment
that has no files on disk. -/
def emptySeg (b : Nat) : Seg := ⟨b, [], [], false, false⟩

/-- Look up the segment whose filename stem is `b`. -/
def findSeg (segs : List Seg) (b : Nat) : Option Seg := segs.find? (fun s => s.base == b)

/-- Look up the segment for base `b`, defaulting to absent files. -/
def findSegD (segs : List Seg) (b : Nat) : Seg := (findSeg segs b).getD (emptySeg b)

/-- `open(log_file_name, "ab+")`: create the `.log` file if it does not exist. -/
def ensureLogSeg (segs : List Seg) (b : Nat) : List Seg :=
  if (findSeg segs b).isSome then
    segs.map (fun s => if s.base == b then { s with logCreated := true } else s)
  else segs ++ [⟨b, [], [], true, false⟩]

/-- Replace the segment with base `b` by `f` of it. -/
def updateSeg (segs : List Seg) (b : Nat) (f : Seg → Seg) : List Seg :=
  segs.map (fun s => if s.base == b then f s else s)

/-! ## `index_file.py` : `IndexFile` -/

/-- `f.seek(i * 8); f.read(8)` on an index file whose entries are in range:
entry number `i` (the loop below only ever probes indices inside
`[floor_index, ceil_index] ⊆ [0, n-1]`). -/
def getEnt (es : List IndexEntry) (i : Int) : IndexEntry := es.getD i.toNat ⟨0, 0⟩

/-- The `while True` binary-search loop of `IndexFile.search`
(`index_file.py` lines 59-87).  `floorIdx`/`ceilIdx`/`floorEnt` are the
mutable `floor_index`/`ceil_index`/`(floor_off, floor_pos)` of the source;
`fuel` counts loop iterations, `none` meaning the loop is still running. -/
def searchLoop (es : List IndexEntry) (target : Int) :
    Nat → Int → Int → IndexEntry → Option (Except Err (Nat × Nat))
  | 0, _, _, _ => none
  | fuel + 1, floorIdx, ceilIdx, floorEnt =>
    let curIdx : Int := (floorIdx + ceilIdx) / 2
    let cur := getEnt es curIdx
    if (cur.rel : Int) = target then some (.ok (cur.rel, cur.pos))
    else if (cur.rel : Int) > target ∧ curIdx = floorIdx + 1 then
      some (.ok (floorEnt.rel, floorEnt.pos))
    else if (cur.rel : Int) > target then searchLoop es target fuel floorIdx curIdx floorEnt
    else if (cur.rel : Int) < target ∧ curIdx = ceilIdx - 1 then
      some (.ok (cur.rel, cur.pos))
    else if (cur.rel : Int) < target then searchLoop es target fuel curIdx ceilIdx cur
    else some (.error .offsetMissingInIndex)

/-- `IndexFile.search` on an open index file holding the entry list `es`
(`index_file.py` lines 44-87): read entry 0, raise `OffsetMissingInIndex`
when it already exceeds the target (reading from an empty file fails in
`struct.unpack`), set `ceil_index` from the file size, then run the loop. -/
def searchEntries (fuel : Nat) (es : List IndexEntry) (target : Int) :
    Option (Except Err (Nat × Nat)) :=
  match es with
  | [] => some (.error .structError)
  | e0 :: _ =>
    if (e0.rel : Int) > target then some (.error .offsetMissingInIndex)
    else searchLoop es target fuel 0 ((es.length : Int) - 1) e0

/-- `IndexFile.search` including the `open(..., "rb")` of a possibly absent
index file. -/
def indexSearch (fuel : Nat) (seg : Seg) (target : Int) :
    Option (Except Err (Nat × Nat)) :=
  if !seg.indexCreated then some (.error .fileNotFound)
  else searchEntries fuel seg.index target

/-! ## `log_file.py` : `LogFile` -/

/-- An `Event`-shaped result tuple
`(message_offset, timestamp, payload_size, payload)` as produced by the scan. -/
def toTuple (r : Record) : Nat × Nat × Nat × List Nat :=
  (r.offset, r.timestamp, r.payload.length, r.payload)

/-- The `while True` body of `LogFile._scan_for_message`
(`log_file.py` lines 80-101): read metadata, stop at EOF; if the record's
offset equals `offset_last` collect it and stop; if it is `≥ offset`
collect it and continue; otherwise skip its payload and continue. -/
def scanLoop (offset offsetLast : Int) : List Record → List Record
  | [] => []
  | r :: rs =>
    if (r.offset : Int) = offsetLast then [r]
    else if (r.offset : Int) ≥ offset then r :: scanLoop offset offsetLast rs
    else scanLoop offset offsetLast rs

/-- `LogFile._scan_for_message`: seek to `start_position` of the `.log` file
and run the scan loop. -/
def scanForMessage (seg : Seg) (startPos : Nat) (offset offsetLast : Int) :
    List Record :=
  scanLoop offset offsetLast (dropToPos startPos seg.records 0)

/-- `LogFile.get` (`log_file.py` lines 108-141): search the index for the
start position, compute (and discard) the end-of-range index hint, then scan.
`offsetEnd = some (-1)` is the read-to-EOF sentinel; `none` means the single
record at `offset`. -/
def logFileGet (fuel : Nat) (seg : Seg) (offset : Int) (offsetEnd : Option Int) :
    Option (Except Err (List Record)) :=
  match indexSearch fuel seg (offset - (seg.base : Int)) with
  | none => none
  | some (.error e) => some (.error e)
  | some (.ok (_, startPos)) =>
    let offsetEnd' : Int := offsetEnd.getD offset
    let endHint : Option (Except Err (Nat × Nat)) :=
      if offsetEnd = none then some (.ok (0, 0))
      else if offsetEnd' = -1 then some (.ok (0, 0))
      else if offsetEnd' = offset then some (.ok (0, 0))
      else indexSearch fuel seg (offsetEnd' - (seg.base : Int))
    match endHint with
    | none => none
    | some (.error e) => some (.error e)
    | some (.ok _) =>
      if !seg.logCreated then some (.error .fileNotFound)
      else some (.ok (scanForMessage seg startPos offset offsetEnd'))

/-- `LogFile._write` / `LogFile.write` (`log_file.py` lines 49-71) as a pure
transition on the store: returns the new segment list, the new
`__last_index_size` and the exception raised, if any.  The `ValueError`
check happens before any file is opened; the `LogSizeExceeded` check happens
after `open(..., "ab+")` has created the `.log` file but before anything is
written; an index entry `(offset - base, pre_log_size)` is appended when
`__last_index_size` is `None` or the new size exceeds it by more than
`index_interval`. -/
def logWrite (maxLog interval : Nat) (segs : List Seg) (activeBase : Nat)
    (lis : Option Nat) (offset ts : Nat) (payload : List Nat) :
    List Seg × Option Nat × Option Err :=
  if payload.length > maxMessageSize then (segs, lis, some .valueError)
  else
    let segs1 := ensureLogSeg segs activeBase
    let seg := findSegD segs1 activeBase
    let pre := logSize seg
    if pre + (metaDataSize + payload.length) > maxLog then
      (segs1, lis, some .logSizeExceeded)
    else
      let size' := pre + (metaDataSize + payload.length)
      let needIdx : Bool := match lis with
        | none => true
        | some s => size' > s + interval
      let seg' : Seg :=
        { seg with
          records := seg.records ++ [⟨offset, ts, payload⟩]
          index := if needIdx then seg.index ++ [⟨offset - seg.base, pre⟩] else seg.index
          logCreated := true
          indexCreated := seg.indexCreated || needIdx }
      (updateSeg segs1 activeBase (fun _ => seg'),
       if needIdx then some size' else lis, none)

/-- `LogFile.get_last_offset` (`log_file.py` lines 143-166): take the last
index entry, seek to its physical position in the `.log` file, walk forward
record by record remembering the metadata position of the record just read,
and at EOF re-read that metadata and return its offset.  Reading the last
entry of an absent or empty index file fails in `open`/`struct.unpack`. -/
def getLastOffset (seg : Seg) : Except Err Nat :=
  if !seg.indexCreated then .error .fileNotFound
  else
    match seg.index.getLast? with
    | none => .error .structError
    | some e =>
      if !seg.logCreated then .error .fileNotFound
      else
        match (dropToPos e.pos seg.records 0).getLast? with
        | none => .error .structError
        | some r => .ok r.offset

/-! ## `eventsource.py` : `EventSource` -/

/-- The `Event` dataclass. -/
structure Event where
  offset : Nat
  timestamp : Nat
  messageSize : Nat
  data : List Nat
  deriving DecidableEq

/-- `Event.from_tuple`. -/
def toEvent (r : Record) : Event := ⟨r.offset, r.timestamp, r.payload.length, r.payload⟩

/-- Insert into an ascending list (used to model Python's `list.sort()`). -/
def insertAsc (x : Nat) : List Nat → List Nat
  | [] => [x]
  | y :: ys => if x ≤ y then x :: y :: ys else y :: insertAsc x ys

/-- `sorted` ascending, as Python's `list.sort()` over the unordered
`os.listdir` result. -/
def sortAsc : List Nat → List Nat
  | [] => []
  | x :: xs => insertAsc x (sortAsc xs)

/-- `EventSource._get_log_initial_indexes`: the base offsets of the `.log`
files present in the store directory, ascending. -/
def sortedBases (segs : List Seg) : List Nat :=
  sortAsc ((segs.filter (fun s => s.logCreated)).map Seg.base)

/-- The in-memory state of an `EventSource`. -/
structure ESState where
  maxLogSize : Nat
  indexInterval : Nat
  lastOffset : Option Nat
  logFiles : List Nat
  segs : List Seg
  activeBase : Nat
  lastIndexSize : Option Nat
  deriving DecidableEq

/-- `next_offset = 0 if self.__last_offset is None else self.__last_offset + 1`. -/
def nextOffset (st : ESState) : Nat :=
  match st.lastOffset with
  | none => 0
  | some k => k + 1

/-- `EventSource.__init__` / `EventSource._initialise_logs` on the directory
contents `disk`: if no `.log` file exists, become the fresh source
(`_log_files = [0]`, active base 0, nothing written to disk); otherwise open
the segment with the largest base as active and recover `__last_offset` from
it (note `_log_files` is left empty in this branch). -/
def esOpen (disk : List Seg) (maxLog interval : Nat) : Except Err ESState :=
  match (sortedBases disk).getLast? with
  | none =>
    .ok ⟨maxLog, interval, none, [0], disk, 0, none⟩
  | some b =>
    match getLastOffset (findSegD disk b) with
    | .error e => .error e
    | .ok k => .ok ⟨maxLog, interval, some k, [], disk, b, none⟩

/-- One rollover step of `EventSource.write`'s `except LogSizeExceeded`
handler (pure in-memory effect; the failed append has already re-created the
active `.log` file, which the loop threads through `segs`): `next_offset` is
appended to `_log_files` and a fresh `LogFile` with base `next_offset`
becomes active (its `__last_index_size` is `None`). -/
def rollStep (st : ESState) (next : Nat) : ESState :=
  { st with
    logFiles := st.logFiles ++ [next]
    activeBase := next
    lastIndexSize := none }

/-- The `while True` loop of `EventSource.write` (`eventsource.py` lines
101-114), with `next_offset` computed once before the loop.  Returns the
resulting state together with the exception that propagated, if any;
`none` means the loop is still running after `fuel` iterations. -/
def esWriteGo : Nat → ESState → Nat → Nat → List Nat → Option (ESState × Option Err)
  | 0, _, _, _, _ => none
  | fuel + 1, st, next, ts, payload =>
    match logWrite st.maxLogSize st.indexInterval st.segs st.activeBase
        st.lastIndexSize next ts payload with
    | (segs', lis', none) =>
      some ({ st with segs := segs', lastIndexSize := lis', lastOffset := some next }, none)
    | (segs', lis', some .logSizeExceeded) =>
      esWriteGo fuel (rollStep { st with segs := segs', lastIndexSize := lis' } next)
        next ts payload
    | (segs', lis', some e) =>
      some ({ st with segs := segs', lastIndexSize := lis' }, some e)

/-- `EventSource.write`. -/
def esWrite (fuel : Nat) (st : ESState) (ts : Nat) (payload : List Nat) :
    Option (ESState × Option Err) :=
  esWriteGo fuel st (nextOffset st) ts payload

/-- A clean run: perform the writes in order, stopping at the first
exception (`some (st, some e)`) or if a rollover loop spins past the fuel
(`none`). -/
def runWrites (fuel : Nat) : ESState → List (Nat × List Nat) → Option (ESState × Option Err)
  | st, [] => some (st, none)
  | st, (ts, p) :: rest =>
    match esWrite fuel st ts p with
    | some (st', none) => runWrites fuel st' rest
    | some (st', some e) => some (st', some e)
    | none => none

/-- `log_files[idx - 1]` for the running index `idx`: Python's negative
indexing makes `idx = 0` read the *last* element. -/
def prevVal (prev : Option Nat) (lastElem : Nat) : Nat :=
  match prev with
  | some p => p
  | none => lastElem

/-- The `for idx, file_index in enumerate(log_files)` loop of
`EventSource._scan_log_files` (`eventsource.py` lines 88-95), carried out on
the suffix still to be visited; `prev` is the element before the suffix
(`none` at the first iteration, where `log_files[idx - 1]` is the last
element), and `rest = []` is exactly `idx == len(log_files) - 1`. -/
def scanGo (offset endOff : Int) (lastElem : Nat) : Option Nat → List Nat → List Nat
  | _, [] => []
  | prev, b :: rest =>
    let acc :=
      (if (b : Int) ≥ offset then
        (if (b : Int) ≠ offset then [prevVal prev lastElem] else []) ++
        (if (b : Int) ≤ endOff ∧ rest = [] then [b] else [])
      else [])
    if (b : Int) > endOff then acc
    else acc ++ scanGo offset endOff lastElem (some b) rest

/-- `EventSource._scan_log_files` on an already-populated `_log_files`. -/
def esScanLogFiles (logFiles : List Nat) (offset endOff : Int) : List Nat :=
  scanGo offset endOff (logFiles.getLastD 0) none logFiles

/-- The per-segment loop of `EventSource._get` when the request spans
several segments: start from `max(offset, base)`, read to the `-1` sentinel
(end of segment) except for the last selected segment, and concatenate. -/
def multiGet (fuel : Nat) (segs : List Seg) (offset : Nat) (finalOff : Int) :
    List Nat → Option (Except Err (List Record))
  | [] => some (.ok [])
  | b :: rest =>
    let start : Nat := if (b : Int) > (offset : Int) then b else offset
    let endOff : Int := if rest = [] then finalOff else -1
    match logFileGet fuel (findSegD segs b) (start : Int) (some endOff) with
    | none => none
    | some (.error e) => some (.error e)
    | some (.ok part) =>
      match multiGet fuel segs offset finalOff rest with
      | none => none
      | some (.error e) => some (.error e)
      | some (.ok more) => some (.ok (part ++ more))

/-- `EventSource._get` (`eventsource.py` lines 116-142): compute the final
offset, select the segments, raise `CouldNotFindOffset` on an empty
selection, and read from one segment or from each selected segment in
turn.  (`_scan_log_files` refreshes `_log_files` from disk when it is
empty; the refreshed list is used here, the write-back of the field is not
modelled because no claim reads it afterwards.) -/
def esGetRaw (fuel : Nat) (st : ESState) (offset numberOfResults : Nat) :
    Option (Except Err (List Record)) :=
  let finalOff : Int := (offset : Int) - 1 + numberOfResults
  let lf : List Nat := if st.logFiles = [] then sortedBases st.segs else st.logFiles
  let sel := esScanLogFiles lf (offset : Int) finalOff
  match sel with
  | [] => some (.error .couldNotFindOffset)
  | [b] => logFileGet fuel (findSegD st.segs b) (offset : Int) (some finalOff)
  | _ => multiGet fuel st.segs offset finalOff sel

/-- `EventSource.get`: the single record at `offset` (Python's `[0]` raises
`IndexError` on an empty result list). -/
def esGet (fuel : Nat) (st : ESState) (offset : Nat) : Option (Except Err Event) :=
  match esGetRaw fuel st offset 1 with
  | none => none
  | some (.error e) => some (.error e)
  | some (.ok []) => some (.error .indexError)
  | some (.ok (r :: _)) => some (.ok (toEvent r))

/-- `EventSource.get_batch`. -/
def esGetBatch (fuel : Nat) (st : ESState) (offset numberBatch : Nat) :
    Option (Except Err (List Event)) :=
  match esGetRaw fuel st offset numberBatch with
  | none => none
  | some (.error e) => some (.error e)
  | some (.ok rs) => some (.ok (rs.map toEvent))

/-! ## Spec-side definitions (transcribed from the specification text, for
refinement comparisons) -/

/-- Modelled from the spec (§4.3 step 2): the selected segment list for a
range request is "the largest B with `B ≤ offset`, plus all subsequent
`B ≤ final`".  For an ascending base list the last element of the filtered
prefix is that largest base. -/
def specSelect (l : List Nat) (offset finalOff : Int) : List Nat :=
  match (l.filter (fun b : Nat => decide ((b : Int) ≤ offset))).getLast? with
  | none => []
  | some b =>
    b :: l.filter (fun x : Nat => decide ((b : Int) < (x : Int) ∧ (x : Int) ≤ finalOff))

/-- Modelled from the spec (§4.1): the index entry with the largest
`relative_offset ≤ target`; for an ascending entry list it is the last
entry of the filtered prefix. -/
def floorEntry (es : List IndexEntry) (target : Int) : Option IndexEntry :=
  (es.filter (fun e : IndexEntry => decide ((e.rel : Int) ≤ target))).getLast?

/-- The sparsity bound claimed by the spec (§8 invariant 5):
`ceil(segment_size / index_interval) + 1`, with `Nat` ceiling division. -/
def indexBound (s : Seg) (interval : Nat) : Nat :=
  (logSize s + interval - 1) / interval + 1

/-! ## Claims -/

instance {ε α : Type} [DecidableEq ε] [DecidableEq α] : DecidableEq (Except ε α) :=
  fun a b =>
    match a, b with
    | .ok x, .ok y =>
      if h : x = y then .isTrue (by rw [h]) else .isFalse (fun c => h (by injection c))
    | .error x, .error y =>
      if h : x = y then .isTrue (by rw [h]) else .isFalse (fun c => h (by injection c))
    | .ok _, .error _ => .isFalse (fun c => by injection c)
    | .error _, .ok _ => .isFalse (fun c => by injection c)

/-- The state of a fresh source over an empty directory with
`max_log_size = 1000`, `index_interval = 4096`. -/
def c1A : ESState := ⟨1000, 4096, none, [0], [], 0, none⟩

/-- The state after writing payloads `[7]` (offset 0) and `[8]` (offset 1):
one segment with base 0 holding both records and a single index entry. -/
def c1C : ESState :=
  ⟨1000, 4096, some 1, [0],
   [⟨0, [⟨0, 10, [7]⟩, ⟨1, 11, [8]⟩], [⟨0, 0⟩], true, true⟩], 0, some 21⟩

/-- C1, failing input.  Writing payload `[8]` is assigned offset 1, offset 1
lies strictly inside the active (and only) segment, yet `get(1)` raises
`CouldNotFindOffset` instead of returning the event: the round-trip property
fails for offsets greater than the last segment's base offset. -/
theorem c1_roundtrip_codebug :
    esOpen [] 1000 4096 = .ok c1A ∧
    runWrites 2 c1A [(10, [7]), (11, [8])] = some (c1C, none) ∧
    c1C.lastOffset = some 1 ∧
    (findSegD c1C.segs 0).records.map Record.payload = [[7], [8]] ∧
    (findSegD c1C.segs 0).records.map Record.offset = [0, 1] ∧
    esGet 10 c1C 1 = some (.error .couldNotFindOffset) := by
  decide

/-- The state after writing payloads `[7]`, `[8]`, `[9]` at offsets 0, 1, 2
into a single segment. -/
def c2C : ESState :=
  ⟨1000, 4096, some 2, [0],
   [⟨0, [⟨0, 10, [7]⟩, ⟨1, 11, [8]⟩, ⟨2, 12, [9]⟩], [⟨0, 0⟩], true, true⟩], 0, some 21⟩

/-- C2, failing input.  Offsets 1 and 2 have both been written and lie inside
the last (only) segment, yet `get_batch(1, 2)` raises `CouldNotFindOffset`
instead of returning the two events. -/
theorem c2_batch_codebug :
    esOpen [] 1000 4096 = .ok c1A ∧
    runWrites 2 c1A [(10, [7]), (11, [8]), (12, [9])] = some (c2C, none) ∧
    (findSegD c2C.segs 0).records.map Record.offset = [0, 1, 2] ∧
    esGetBatch 10 c2C 1 2 = some (.error .couldNotFindOffset) := by
  decide

/-- C4, counterexample.  On the ascending two-entry index
`[(0, 0), (5, 20)]` and target `5`, the entry with the largest
`relative_offset ≤ 5` is `(5, 20)` (it is also the last entry, and
`target ≥` its `relative_offset`), but `search` returns `(0, 0)`. -/
theorem c4_floor_counterexample :
    searchEntries 100 [⟨0, 0⟩, ⟨5, 20⟩] 5 = some (.ok (0, 0)) ∧
    floorEntry [⟨0, 0⟩, ⟨5, 20⟩] 5 = some ⟨5, 20⟩ ∧
    ((0, 0) : Nat × Nat) ≠ (5, 20) := by
  decide

/-- C5, failing input.  On an index file holding exactly one entry `(0, 0)`
and target `1` (strictly greater than the entry's relative offset), the
binary-search loop re-enters the state `floor_index = ceil_index = 0`
forever: for every iteration budget the loop is still running, so
`IndexFile.search` does not terminate. -/
theorem c5_search_nontermination :
    ∀ fuel : Nat, searchEntries fuel [⟨0, 0⟩] 1 = none := by
  have h : ∀ fuel : Nat, searchLoop [⟨0, 0⟩] 1 fuel 0 0 ⟨0, 0⟩ = none := by
    intro fuel
    induction fuel with
    | zero => rfl
    | succ n ih => simpa [searchLoop, getEnt] using ih
  intro fuel
  simpa [searchEntries] using h fuel

/-- The one segment left on disk by the C8 counterexample run: three records
of 22 bytes each and three index entries. -/
def c8seg : Seg :=
  ⟨0, [⟨0, 1, [5, 5]⟩, ⟨1, 2, [5, 5]⟩, ⟨2, 3, [5, 5]⟩],
   [⟨0, 0⟩, ⟨1, 22⟩, ⟨2, 44⟩], true, true⟩

/-- The legal operation sequence of the C8 counterexample: write one payload,
close and reopen the engine on the same directory, write, reopen, write. -/
def c8run : Option (List Seg) :=
  ((esOpen [] 1000 4096).toOption).bind fun s0 =>
  (esWrite 2 s0 1 [5, 5]).bind fun p1 =>
  ((esOpen p1.1.segs 1000 4096).toOption).bind fun s1 =>
  (esWrite 2 s1 2 [5, 5]).bind fun p2 =>
  ((esOpen p2.1.segs 1000 4096).toOption).bind fun s2 =>
  (esWrite 2 s2 3 [5, 5]).map fun p3 => p3.1.segs

/-- C8, counterexample.  Each reopen resets `__last_index_size` to `None`, so
the write after it unconditionally appends an index entry: after
write/reopen/write/reopen/write with `index_interval = 4096` the segment's
`.log` file is 66 bytes but its index holds 3 entries, exceeding
`ceil(66 / 4096) + 1 = 2`. -/
theorem c8_sparsity_counterexample :
    c8run = some [c8seg] ∧
    c8seg.index.length = 3 ∧
    logSize c8seg = 66 ∧
    indexBound c8seg 4096 = 2 ∧
    ¬ c8seg.index.length ≤ indexBound c8seg 4096 := by
  decide

/-- The virgin state: an `EventSource` constructed over an empty directory
with `max_log_size = 100`, `index_interval = 10`, before any write. -/
def c10st : ESState := ⟨100, 10, none, [0], [], 0, none⟩

/-- C10, counterexample.  On the virgin source, `get(1)` raises
`CouldNotFindOffset`, not the claimed file-not-found error: segment scanning
selects no segment for any offset `≥ 1`, so the read never reaches the
missing index file. -/
theorem c10_virgin_counterexample :
    esOpen [] 100 10 = .ok c10st ∧
    esGet 5 c10st 1 = some (.error .couldNotFindOffset) ∧
    some (Except.error Err.couldNotFindOffset) ≠
      (some (Except.error Err.fileNotFound) : Option (Except Err Event)) := by
  decide

/-- C6, confirmed.  A payload longer than 65 536 bytes makes
`LogFile.write` raise `ValueError` before touching any file, and
`EventSource.write` propagates it with the entire engine state unchanged:
same `__last_offset`, same `_log_files`, same segments on disk (the
returned state is the input state).  Consequently the next successful write
is assigned the same offset the failing call would have used. -/
theorem c6_oversize_atomic (st : ESState) (ts : Nat) (p : List Nat) (fuel : Nat)
    (hp : p.length > maxMessageSize) :
    esWrite (fuel + 1) st ts p = some (st, some .valueError) ∧
    logWrite st.maxLogSize st.indexInterval st.segs st.activeBase st.lastIndexSize
      (nextOffset st) ts p = (st.segs, st.lastIndexSize, some .valueError) := by
  have hlw : logWrite st.maxLogSize st.indexInterval st.segs st.activeBase st.lastIndexSize
      (nextOffset st) ts p = (st.segs, st.lastIndexSize, some .valueError) := by
    unfold logWrite
    rw [if_pos hp]
  refine ⟨?_, hlw⟩
  show esWriteGo (fuel + 1) st (nextOffset st) ts p = some (st, some .valueError)
  have h2 : esWriteGo (fuel + 1) st (nextOffset st) ts p =
      some ({ st with segs := st.segs, lastIndexSize := st.lastIndexSize },
        some .valueError) := by
    simp only [esWriteGo, hlw]
  exact h2

/-- Witness for `c6_oversize_atomic`: a 65 537-byte payload on the fresh
source. -/
theorem c6_oversize_atomic_witness :
    (List.replicate 65537 0).length > maxMessageSize ∧
    esWrite 1 c1A 0 (List.replicate 65537 0) = some (c1A, some .valueError) := by
  have hp : (List.replicate 65537 (0 : Nat)).length > maxMessageSize := by
    rw [List.length_replicate]
    norm_num [maxMessageSize]
  exact ⟨hp, (c6_oversize_atomic c1A 0 (List.replicate 65537 0) 0 hp).1⟩

/-- One failing iteration of the write loop: the attempted append re-creates
the active `.log` file and raises `LogSizeExceeded`, and the handler rolls
over to base `next`. -/
def rollFail (st : ESState) (next : Nat) : ESState :=
  rollStep { st with segs := ensureLogSeg st.segs st.activeBase } next

/-- The state of the write loop after `k` failing iterations. -/
def rollIter (next : Nat) : Nat → ESState → ESState
  | 0, st => st
  | k + 1, st => rollIter next k (rollFail st next)

/-- Auxiliary: `LogFile._write` raises `LogSizeExceeded` when the data does
not fit, after `open(..., "ab+")` has created the file and before anything
else changes. -/
theorem logWrite_lse {maxLog interval : Nat} {segs : List Seg} {a : Nat}
    {lis : Option Nat} {off ts : Nat} {p : List Nat}
    (hp : ¬ p.length > maxMessageSize)
    (hov : logSize (findSegD (ensureLogSeg segs a) a) + (metaDataSize + p.length) > maxLog) :
    logWrite maxLog interval segs a lis off ts p =
      (ensureLogSeg segs a, lis, some .logSizeExceeded) := by
  unfold logWrite
  rw [if_neg hp]
  simp only [if_pos hov]

/-- Auxiliary: with a legal payload that fits, `LogFile._write` raises
nothing. -/
theorem logWrite_err_none {maxLog interval : Nat} {segs : List Seg} {a : Nat}
    {lis : Option Nat} {off ts : Nat} {p : List Nat}
    (hp : ¬ p.length > maxMessageSize)
    (hfit : ¬ logSize (findSegD (ensureLogSeg segs a) a) + (metaDataSize + p.length) > maxLog) :
    (logWrite maxLog interval segs a lis off ts p).2.2 = none := by
  unfold logWrite
  rw [if_neg hp]
  simp only [if_neg hfit]

/-- Auxiliary: a successful append ends the write loop, storing the new
segments and tracker and advancing `__last_offset`. -/
theorem esWriteGo_ok {st : ESState} {next ts : Nat} {p : List Nat} {fuel : Nat}
    {s2 : List Seg} {l2 : Option Nat}
    (h : logWrite st.maxLogSize st.indexInterval st.segs st.activeBase st.lastIndexSize
        next ts p = (s2, l2, none)) :
    esWriteGo (fuel + 1) st next ts p =
      some ({ st with segs := s2, lastIndexSize := l2, lastOffset := some next }, none) := by
  simp only [esWriteGo, h]

/-- Auxiliary: unfolding one `LogSizeExceeded` iteration of the write loop. -/
theorem esWriteGo_lse {st : ESState} {next ts : Nat} {p : List Nat} {fuel : Nat}
    {segs1 : List Seg} {lis1 : Option Nat}
    (h : logWrite st.maxLogSize st.indexInterval st.segs st.activeBase st.lastIndexSize
        next ts p = (segs1, lis1, some .logSizeExceeded)) :
    esWriteGo (fuel + 1) st next ts p =
      esWriteGo fuel (rollStep { st with segs := segs1, lastIndexSize := lis1 } next)
        next ts p := by
  simp only [esWriteGo, h]

/-- Auxiliary: when even an empty segment cannot hold the record, every
iteration of the write loop raises `LogSizeExceeded` again. -/
theorem esWriteGo_overflow_none {M next ts : Nat} {p : List Nat}
    (hp : ¬ p.length > maxMessageSize) (hbig : M < metaDataSize + p.length) :
    ∀ (fuel : Nat) (st : ESState), st.maxLogSize = M → esWriteGo fuel st next ts p = none := by
  intro fuel
  induction fuel with
  | zero => intro st h; rfl
  | succ n ih =>
    intro st h
    have hov : logSize (findSegD (ensureLogSeg st.segs st.activeBase) st.activeBase) +
        (metaDataSize + p.length) > st.maxLogSize := by
      rw [h]
      exact lt_of_lt_of_le hbig (Nat.le_add_left _ _)
    rw [esWriteGo_lse (logWrite_lse hp hov)]
    exact ih _ (by simp [rollStep, h])

/-- Auxiliary: in the always-failing regime the loop state after `k`
iterations is `rollIter next k`. -/
theorem esWriteGo_iter {M next ts : Nat} {p : List Nat}
    (hp : ¬ p.length > maxMessageSize) (hbig : M < metaDataSize + p.length) :
    ∀ (k fuel : Nat) (st : ESState), st.maxLogSize = M →
      esWriteGo (k + fuel) st next ts p =
        esWriteGo fuel (rollIter next k st) next ts p := by
  intro k
  induction k with
  | zero =>
    intro fuel st h
    rw [Nat.zero_add]
    rfl
  | succ k ih =>
    intro fuel st h
    have hshift : k + 1 + fuel = (k + fuel) + 1 := by omega
    rw [hshift]
    have hov : logSize (findSegD (ensureLogSeg st.segs st.activeBase) st.activeBase) +
        (metaDataSize + p.length) > st.maxLogSize := by
      rw [h]
      exact lt_of_lt_of_le hbig (Nat.le_add_left _ _)
    rw [esWriteGo_lse (logWrite_lse hp hov)]
    exact ih fuel (rollFail st next) (by simp [rollFail, rollStep, h])

/-- Auxiliary: every failing iteration appends the same `next_offset` to the
in-memory `_log_files` list. -/
theorem rollIter_logFiles (next : Nat) :
    ∀ (k : Nat) (st : ESState),
      (rollIter next k st).logFiles = st.logFiles ++ List.replicate k next := by
  intro k
  induction k with
  | zero => intro st; simp [rollIter]
  | succ k ih =>
    intro st
    show (rollIter next k (rollFail st next)).logFiles = _
    rw [ih]
    simp [rollFail, rollStep, List.replicate_succ]

/-- Auxiliary: the ensure-file map does not change which segment a base
lookup finds. -/
theorem find_pred_comp (a b : Nat) :
    ((fun s : Seg => s.base == b) ∘
      (fun s : Seg => if s.base == a then { s with logCreated := true } else s)) =
    (fun s : Seg => s.base == b) := by
  funext s
  cases hsa : s.base == a <;> simp [Function.comp, hsa]

/-- Auxiliary: creating the `.log` of base `a` does not create a segment for
a different absent base `b`. -/
theorem findSeg_ensure_absent_other {segs : List Seg} {a b : Nat}
    (h : findSeg segs b = none) (hab : ¬ a = b) :
    findSeg (ensureLogSeg segs a) b = none := by
  unfold ensureLogSeg
  by_cases hs : (findSeg segs a).isSome
  · rw [if_pos hs]
    unfold findSeg at h ⊢
    rw [List.find?_map, find_pred_comp a b, h]
    rfl
  · rw [if_neg hs]
    unfold findSeg at h ⊢
    rw [List.find?_append, h]
    simp [hab]

/-- Auxiliary: creating the `.log` of an absent base `b` yields exactly the
fresh empty segment for `b`. -/
theorem findSegD_ensure_absent {segs : List Seg} {b : Nat}
    (h : findSeg segs b = none) :
    findSegD (ensureLogSeg segs b) b = ⟨b, [], [], true, false⟩ := by
  unfold ensureLogSeg
  rw [if_neg (by simp [h])]
  unfold findSegD findSeg
  unfold findSeg at h
  rw [List.find?_append, h]
  simp

/-- Auxiliary: re-opening the freshly created empty segment for `b` still
finds it empty. -/
theorem findSegD_double_ensure {segs : List Seg} {b : Nat}
    (h : findSeg segs b = none) :
    findSegD (ensureLogSeg (ensureLogSeg segs b) b) b = ⟨b, [], [], true, false⟩ := by
  have h1 : ensureLogSeg segs b = segs ++ [⟨b, [], [], true, false⟩] := by
    unfold ensureLogSeg
    rw [if_neg (by simp [h])]
  have h2 : findSeg (segs ++ [⟨b, [], [], true, false⟩]) b =
      some ⟨b, [], [], true, false⟩ := by
    unfold findSeg
    unfold findSeg at h
    rw [List.find?_append, h]
    simp
  rw [h1]
  unfold ensureLogSeg
  rw [if_pos (by rw [h2]; rfl)]
  unfold findSegD findSeg
  rw [List.find?_map, find_pred_comp b b]
  show ((List.find? (fun s : Seg => s.base == b) (segs ++ [⟨b, [], [], true, false⟩])).map _).getD _ = _
  rw [show List.find? (fun s : Seg => s.base == b) (segs ++ [⟨b, [], [], true, false⟩]) =
      some ⟨b, [], [], true, false⟩ from h2]
  simp

/-- C9, confirmed.  For a payload within the 65 536-byte ceiling,
`EventSource.write` terminates exactly when a record of `20 + |payload|`
bytes fits in `max_log_size`: if it fits, the write succeeds within one
rollover (two loop iterations suffice, given that no segment file for the
fresh base exists yet); if it does not fit, the freshly created empty
segment raises `LogSizeExceeded` again on every iteration, the loop runs
forever (`none` for every fuel), and each iteration appends the same
`next_offset` to the in-memory segment list. -/
theorem c9_write_termination (st : ESState) (ts : Nat) (p : List Nat)
    (hp : p.length ≤ maxMessageSize) :
    (metaDataSize + p.length ≤ st.maxLogSize →
      findSeg st.segs (nextOffset st) = none →
      ∃ stq, esWrite 2 st ts p = some (stq, none)) ∧
    (st.maxLogSize < metaDataSize + p.length →
      (∀ fuel, esWrite fuel st ts p = none) ∧
      (∀ k fuel, esWriteGo (k + fuel) st (nextOffset st) ts p =
        esWriteGo fuel (rollIter (nextOffset st) k st) (nextOffset st) ts p) ∧
      (∀ k, (rollIter (nextOffset st) k st).logFiles =
        st.logFiles ++ List.replicate k (nextOffset st))) := by
  have hp2 : ¬ p.length > maxMessageSize := Nat.not_lt.mpr hp
  constructor
  · intro hfits hfresh
    by_cases hov : logSize (findSegD (ensureLogSeg st.segs st.activeBase) st.activeBase) +
        (metaDataSize + p.length) > st.maxLogSize
    · -- first attempt overflows, rollover, second attempt on a fresh segment
      have hstep := @esWriteGo_lse _ _ _ _ 1 _ _
        (@logWrite_lse _ _ _ _ _ (nextOffset st) ts _ hp2 hov)
      set st2 : ESState :=
        rollStep { st with segs := ensureLogSeg st.segs st.activeBase,
                           lastIndexSize := st.lastIndexSize } (nextOffset st) with hst2
      have hpre : logSize (findSegD (ensureLogSeg st2.segs st2.activeBase) st2.activeBase) = 0 := by
        show logSize (findSegD (ensureLogSeg (ensureLogSeg st.segs st.activeBase)
          (nextOffset st)) (nextOffset st)) = 0
        by_cases hab : st.activeBase = nextOffset st
        · rw [← hab] at hfresh ⊢
          rw [findSegD_double_ensure hfresh]
          rfl
        · have h2 : findSeg (ensureLogSeg st.segs st.activeBase) (nextOffset st) = none :=
            findSeg_ensure_absent_other hfresh hab
          rw [findSegD_ensure_absent h2]
          rfl
      have hfit2 : ¬ logSize (findSegD (ensureLogSeg st2.segs st2.activeBase) st2.activeBase) +
          (metaDataSize + p.length) > st2.maxLogSize := by
        rw [hpre]
        show ¬ 0 + (metaDataSize + p.length) > st.maxLogSize
        omega
      rcases hEq : logWrite st2.maxLogSize st2.indexInterval st2.segs st2.activeBase
          st2.lastIndexSize (nextOffset st) ts p with ⟨s2, l2, e2⟩
      have he2 : e2 = none := by
        have := @logWrite_err_none _ st2.indexInterval _ _ st2.lastIndexSize
          (nextOffset st) ts _ hp2 hfit2
        rw [hEq] at this
        exact this
      subst he2
      exact ⟨_, hstep.trans (@esWriteGo_ok _ _ _ _ 0 _ _ hEq)⟩
    · rcases hEq : logWrite st.maxLogSize st.indexInterval st.segs st.activeBase
          st.lastIndexSize (nextOffset st) ts p with ⟨s2, l2, e2⟩
      have he2 : e2 = none := by
        have := @logWrite_err_none _ st.indexInterval _ _ st.lastIndexSize
          (nextOffset st) ts _ hp2 hov
        rw [hEq] at this
        exact this
      subst he2
      exact ⟨_, @esWriteGo_ok _ _ _ _ 1 _ _ hEq⟩
  · intro hbig
    refine ⟨fun fuel => esWriteGo_overflow_none hp2 hbig fuel st rfl,
      fun k fuel => esWriteGo_iter hp2 hbig k fuel st rfl,
      fun k => rollIter_logFiles (nextOffset st) k st⟩

/-- Witness for `c9_write_termination`: a 1-byte payload on the fresh source
with `max_log_size = 1000`. -/
theorem c9_write_termination_witness :
    ([7] : List Nat).length ≤ maxMessageSize ∧
    metaDataSize + ([7] : List Nat).length ≤ c1A.maxLogSize ∧
    findSeg c1A.segs (nextOffset c1A) = none ∧
    ∃ stq, esWrite 2 c1A 0 [7] = some (stq, none) :=
  ⟨by decide, by decide, by decide,
    (c9_write_termination c1A 0 [7] (by decide)).1 (by decide) (by decide)⟩

/-- C10 amended.  On an `EventSource` constructed over an empty directory,
before any write: `get(0)` and `get_batch(0, n)` (with `n ≥ 1`) raise the
file-not-found I/O error, because bootstrap records base 0 in the segment
list without creating the segment files and the read path opens the absent
index file; but `get(offset)` and `get_batch(offset, n)` with `offset ≥ 1`
raise `CouldNotFindOffset` instead, because segment scanning selects no
segment for those offsets. -/
theorem c10_virgin_amended (maxLog interval fuel n offset : Nat) (st0 : ESState)
    (h0 : esOpen [] maxLog interval = .ok st0) (hn : 1 ≤ n) :
    esGetBatch fuel st0 0 n = some (.error .fileNotFound) ∧
    esGet fuel st0 0 = some (.error .fileNotFound) ∧
    (1 ≤ offset →
      esGetBatch fuel st0 offset n = some (.error .couldNotFindOffset) ∧
      esGet fuel st0 offset = some (.error .couldNotFindOffset)) := by
  have hcanon : esOpen [] maxLog interval =
      .ok ⟨maxLog, interval, none, [0], [], 0, none⟩ := rfl
  rw [hcanon] at h0
  injection h0 with h0
  subst h0
  have hraw0 : ∀ m : Nat, 1 ≤ m →
      esGetRaw fuel ⟨maxLog, interval, none, [0], [], 0, none⟩ 0 m =
        some (.error .fileNotFound) := by
    intro m hm
    have hfin : (0 : Int) ≤ (0 : Int) - 1 + m := by
      have : (1 : Int) ≤ (m : Int) := by exact_mod_cast hm
      omega
    unfold esGetRaw
    simp only [esScanLogFiles, scanGo, prevVal]
    norm_num [hfin, not_lt.mpr hfin]
    simp [logFileGet, indexSearch, findSegD, findSeg, emptySeg, hm]
  have hrawPos : ∀ m : Nat, 1 ≤ m → 1 ≤ offset →
      esGetRaw fuel ⟨maxLog, interval, none, [0], [], 0, none⟩ offset m =
        some (.error .couldNotFindOffset) := by
    intro m hm hoff
    have h1 : ¬ ((0 : Nat) : Int) ≥ (offset : Int) := by
      have : (1 : Int) ≤ (offset : Int) := by exact_mod_cast hoff
      omega
    have h2 : ¬ ((0 : Nat) : Int) > (offset : Int) - 1 + m := by
      have hm1 : (1 : Int) ≤ (m : Int) := by exact_mod_cast hm
      have : (1 : Int) ≤ (offset : Int) := by exact_mod_cast hoff
      omega
    have hne : ¬ offset = 0 := by omega
    unfold esGetRaw
    simp only [esScanLogFiles, scanGo, prevVal]
    simp [h1, h2, hne]
  refine ⟨?_, ?_, fun hoff => ⟨?_, ?_⟩⟩
  · unfold esGetBatch
    rw [hraw0 n hn]
  · unfold esGet
    rw [hraw0 1 le_rfl]
  · unfold esGetBatch
    rw [hrawPos n hn hoff]
  · unfold esGet
    rw [hrawPos 1 le_rfl hoff]

/-- Witness for `c10_virgin_amended` at `max_log_size = 100`,
`index_interval = 10`, `n = 3`, `offset = 4`. -/
theorem c10_virgin_amended_witness :
    esOpen [] 100 10 = .ok c10st ∧ 1 ≤ 3 ∧
    (esGetBatch 5 c10st 0 3 = some (.error .fileNotFound) ∧
     esGet 5 c10st 0 = some (.error .fileNotFound) ∧
     (1 ≤ 4 →
       esGetBatch 5 c10st 4 3 = some (.error .couldNotFindOffset) ∧
       esGet 5 c10st 4 = some (.error .couldNotFindOffset))) :=
  ⟨by decide, by decide, c10_virgin_amended 100 10 5 3 4 c10st (by decide) (by decide)⟩

/-! ### Segment-selection lemmas (C3) -/

/-- Auxiliary: in an ascending list every element is at most the last one. -/
theorem mem_le_last {l : List Nat} (h : l.Pairwise (· < ·)) {B : Nat}
    (hB : l.getLast? = some B) : ∀ b ∈ l, b ≤ B := by
  induction l with
  | nil => simp
  | cons a t ih =>
    rcases List.pairwise_cons.mp h with ⟨ha, ht⟩
    cases t with
    | nil =>
      simp at hB
      subst hB
      simp
    | cons c t2 =>
      rw [List.getLast?_cons_cons] at hB
      intro b hb
      rcases List.mem_cons.mp hb with hb | hb
      · subst hb
        have hc : c ≤ B := ih ht hB c (List.mem_cons_self c t2)
        exact le_of_lt (lt_of_lt_of_le (ha c (List.mem_cons_self c t2)) hc)
      · exact ih ht hB b hb

/-- Auxiliary: in an ascending list every element before the last one is
strictly below it. -/
theorem pairwise_dropLast_lt {l : List Nat} (h : l.Pairwise (· < ·)) {B : Nat}
    (hB : l.getLast? = some B) : ∀ x ∈ l.dropLast, x < B := by
  induction l with
  | nil => simp
  | cons a t ih =>
    rcases List.pairwise_cons.mp h with ⟨ha, ht⟩
    cases t with
    | nil => simp
    | cons c t2 =>
      rw [List.getLast?_cons_cons] at hB
      intro x hx
      rw [List.dropLast_cons₂] at hx
      rcases List.mem_cons.mp hx with hx | hx
      · subst hx
        have hmem : B ∈ c :: t2 := by
          have harr := List.dropLast_append_getLast? B (Option.mem_def.mpr hB)
          rw [← harr]
          exact List.mem_append_right _ (List.mem_singleton_self B)
        exact lt_of_lt_of_le (ha B hmem) le_rfl
      · exact ih ht hB x hx

/-- Auxiliary: on an ascending list every element the `≤ offset` take-while
leaves behind is strictly above `offset`. -/
theorem sorted_dropWhile_gt {o : Int} :
    ∀ {l : List Nat}, l.Pairwise (· < ·) →
      ∀ b ∈ l.dropWhile (fun x : Nat => decide ((x : Int) ≤ o)), o < (b : Int) := by
  intro l
  induction l with
  | nil => simp
  | cons a t ih =>
    intro h b hb
    rcases List.pairwise_cons.mp h with ⟨ha, ht⟩
    by_cases hao : (a : Int) ≤ o
    · rw [List.dropWhile_cons_of_pos (by simpa using hao)] at hb
      exact ih ht b hb
    · rw [List.dropWhile_cons_of_neg (by simpa using hao)] at hb
      rcases List.mem_cons.mp hb with hb | hb
      · subst hb
        omega
      · have hab : a < b := ha b hb
        have : (a : Int) < (b : Int) := by exact_mod_cast hab
        omega

/-- Auxiliary: on an ascending list the `≤ offset` filter and take-while
agree. -/
theorem sorted_filter_eq_takeWhile {o : Int} :
    ∀ {l : List Nat}, l.Pairwise (· < ·) →
      l.filter (fun x : Nat => decide ((x : Int) ≤ o)) =
        l.takeWhile (fun x : Nat => decide ((x : Int) ≤ o)) := by
  intro l
  induction l with
  | nil => intro h; rfl
  | cons a t ih =>
    intro h
    rcases List.pairwise_cons.mp h with ⟨ha, ht⟩
    by_cases hao : (a : Int) ≤ o
    · rw [List.filter_cons_of_pos (by simpa using hao),
        List.takeWhile_cons_of_pos (by simpa using hao), ih ht]
    · rw [List.filter_cons_of_neg (by simpa using hao),
        List.takeWhile_cons_of_neg (by simpa using hao)]
      rw [List.filter_eq_nil_iff]
      intro x hx
      have hax : a < x := ha x hx
      have : (a : Int) < (x : Int) := by exact_mod_cast hax
      simp
      omega

/-- Auxiliary: an element strictly below `offset` is skipped by one step of
the segment-scanning loop (no emission, no break). -/
theorem scanGo_skip_step {o f : Int} {L b : Nat} {prev : Option Nat} {ys : List Nat}
    (hb : (b : Int) < o) (hof : o ≤ f) :
    scanGo o f L prev (b :: ys) = scanGo o f L (some b) ys := by
  have h1 : ¬ (b : Int) ≥ o := not_le.mpr hb
  have h2 : ¬ (b : Int) > f := not_lt.mpr (le_of_lt (lt_of_lt_of_le hb hof))
  simp [scanGo, h1, h2]

/-- Auxiliary: a whole prefix of elements strictly below `offset` is skipped
by the segment-scanning loop, leaving its last element as the `previous
segment` cursor. -/
theorem scanGo_skip_all {o f : Int} {L : Nat} (hof : o ≤ f) :
    ∀ (xs ys : List Nat) (prev : Option Nat),
      (∀ b ∈ xs, (b : Int) < o) →
      scanGo o f L prev (xs ++ ys) =
        scanGo o f L (match xs.getLast? with | some x => some x | none => prev) ys := by
  intro xs
  induction xs with
  | nil => intro ys prev hx; rfl
  | cons b xs ih =>
    intro ys prev hx
    have hb : (b : Int) < o := hx b (List.mem_cons_self b xs)
    rw [List.cons_append, scanGo_skip_step hb hof,
      ih ys (some b) (fun x hxm => hx x (List.mem_cons_of_mem b hxm))]
    cases xs with
    | nil => rfl
    | cons c t =>
      cases hgl : (c :: t).getLast? with
      | none =>
        rw [List.getLast?_eq_none_iff] at hgl
        exact absurd hgl (List.cons_ne_nil c t)
      | some x => rw [List.getLast?_cons_cons, hgl]

/-- Auxiliary: once past the floor segment, the loop emits the previous base
at each step and collects exactly the bases that do not exceed the final
offset. -/
theorem scanGo_tail {o f : Int} {L : Nat} :
    ∀ (ys : List Nat) (p : Nat), ys.Pairwise (· < ·) →
      (∀ b ∈ ys, o < (b : Int)) →
      scanGo o f L (some p) ys =
        (match ys with
         | [] => []
         | _ => p :: ys.filter (fun b : Nat => decide ((b : Int) ≤ f))) := by
  intro ys
  induction ys with
  | nil => intro p hp hmem; rfl
  | cons c t ih =>
    intro p hp hmem
    rcases List.pairwise_cons.mp hp with ⟨hc, ht⟩
    have hco : o < (c : Int) := hmem c (List.mem_cons_self c t)
    have hge : (c : Int) ≥ o := le_of_lt hco
    have hne : ¬ (c : Int) = o := by omega
    by_cases hcf : (c : Int) > f
    · -- break after emitting the previous base
      have hcf2 : ¬ (c : Int) ≤ f := not_le.mpr hcf
      have hflt : t.filter (fun b : Nat => decide ((b : Int) ≤ f)) = [] := by
        rw [List.filter_eq_nil_iff]
        intro x hx
        have hcx : c < x := hc x hx
        have : (c : Int) < (x : Int) := by exact_mod_cast hcx
        simp
        omega
      cases t with
      | nil => simp [scanGo, hge, hne, hcf, hcf2, prevVal]
      | cons d t2 =>
        simp only [scanGo, prevVal]
        rw [List.filter_cons_of_neg (by simpa using hcf2), hflt]
        simp [hge, hne, hcf, hcf2]
    · have hcf2 : (c : Int) ≤ f := not_lt.mp hcf
      cases t with
      | nil => simp [scanGo, hge, hne, hcf, hcf2, prevVal]
      | cons d t2 =>
        have hrec := ih c ht (fun b hb => hmem b (List.mem_cons_of_mem c hb))
        rw [scanGo]
        simp only [prevVal]
        rw [List.filter_cons_of_pos (by simpa using hcf2), hrec]
        simp [hge, hne, hcf, hcf2]

/-- Auxiliary: full characterization of `_scan_log_files` on an ascending,
non-empty base list whose smallest base does not exceed the requested
offset: below or at the last base the selection equals the spec's list and
is non-empty; above the last base the selection is empty. -/
theorem esScan_char (l : List Nat) (o f : Int) (h1 : l.Pairwise (· < ·))
    {B : Nat} (hB : l.getLast? = some B)
    (h3 : ((l.headD 0 : Nat) : Int) ≤ o) (hof : o ≤ f) :
    (o ≤ (B : Int) →
      esScanLogFiles l o f = specSelect l o f ∧ esScanLogFiles l o f ≠ []) ∧
    ((B : Int) < o → esScanLogFiles l o f = []) := by
  constructor
  · intro hoB
    -- decompose l into the prefix of bases ≤ o and the strictly larger rest
    have hsplit : l.takeWhile (fun x : Nat => decide ((x : Int) ≤ o)) ++
        l.dropWhile (fun x : Nat => decide ((x : Int) ≤ o)) = l :=
      List.takeWhile_append_dropWhile (fun x : Nat => decide ((x : Int) ≤ o)) l
    have hxs_ne : l.takeWhile (fun x : Nat => decide ((x : Int) ≤ o)) ≠ [] := by
      cases l with
      | nil => exact absurd hB (by simp)
      | cons a t =>
        have hax : (a : Int) ≤ o := by simpa using h3
        rw [List.takeWhile_cons_of_pos (by simpa using hax)]
        exact List.cons_ne_nil _ _
    obtain ⟨B0, hB0⟩ : ∃ B0, (l.takeWhile (fun x : Nat => decide ((x : Int) ≤ o))).getLast?
        = some B0 := by
      cases hxe : (l.takeWhile (fun x : Nat => decide ((x : Int) ≤ o))).getLast? with
      | none => exact absurd (List.getLast?_eq_none_iff.mp hxe) hxs_ne
      | some x => exact ⟨x, rfl⟩
    have hxpair : (l.takeWhile (fun x : Nat => decide ((x : Int) ≤ o))).Pairwise (· < ·) :=
      h1.sublist (List.takeWhile_sublist _)
    have hypair : (l.dropWhile (fun x : Nat => decide ((x : Int) ≤ o))).Pairwise (· < ·) :=
      h1.sublist (List.dropWhile_sublist _)
    have hymem : ∀ b ∈ l.dropWhile (fun x : Nat => decide ((x : Int) ≤ o)), o < (b : Int) :=
      sorted_dropWhile_gt h1
    have hxmem : ∀ x ∈ l.takeWhile (fun x : Nat => decide ((x : Int) ≤ o)), (x : Int) ≤ o := by
      intro x hx
      simpa using List.mem_takeWhile_imp hx
    have hxleB0 : ∀ x ∈ l.takeWhile (fun x : Nat => decide ((x : Int) ≤ o)), x ≤ B0 :=
      mem_le_last hxpair hB0
    have hxs_eq : (l.takeWhile (fun x : Nat => decide ((x : Int) ≤ o))).dropLast ++ [B0] =
        l.takeWhile (fun x : Nat => decide ((x : Int) ≤ o)) :=
      List.dropLast_append_getLast? B0 (Option.mem_def.mpr hB0)
    have hB0mem : B0 ∈ l.takeWhile (fun x : Nat => decide ((x : Int) ≤ o)) := by
      rw [← hxs_eq]
      exact List.mem_append_right _ (List.mem_singleton_self B0)
    have hB0le : (B0 : Int) ≤ o := hxmem B0 hB0mem
    have hxdlt : ∀ x ∈ (l.takeWhile (fun x : Nat => decide ((x : Int) ≤ o))).dropLast,
        (x : Int) < o := by
      intro x hx
      have h1x : x < B0 := pairwise_dropLast_lt hxpair hB0 x hx
      have : (x : Int) < (B0 : Int) := by exact_mod_cast h1x
      omega
    have hldecomp : l = (l.takeWhile (fun x : Nat => decide ((x : Int) ≤ o))).dropLast ++
        (B0 :: l.dropWhile (fun x : Nat => decide ((x : Int) ≤ o))) := by
      conv_lhs => rw [← hsplit, ← hxs_eq]
      rw [List.append_assoc]
      rfl
    have hfilter_xs : l.filter (fun x : Nat => decide ((x : Int) ≤ o)) =
        l.takeWhile (fun x : Nat => decide ((x : Int) ≤ o)) :=
      sorted_filter_eq_takeWhile h1
    have hspec : specSelect l o f = B0 :: l.filter
        (fun x : Nat => decide ((B0 : Int) < (x : Int) ∧ (x : Int) ≤ f)) := by
      unfold specSelect
      rw [hfilter_xs, hB0]
    -- the selection loop skips the strict prefix, handles B0, then collects
    have hskip := scanGo_skip_all (L := l.getLastD 0) hof
      (l.takeWhile (fun x : Nat => decide ((x : Int) ≤ o))).dropLast
      (B0 :: l.dropWhile (fun x : Nat => decide ((x : Int) ≤ o))) none hxdlt
    have hscan0 : esScanLogFiles l o f =
        scanGo o f (l.getLastD 0)
          (match ((l.takeWhile (fun x : Nat => decide ((x : Int) ≤ o))).dropLast).getLast? with
           | some x => some x
           | none => none)
          (B0 :: l.dropWhile (fun x : Nat => decide ((x : Int) ≤ o))) := by
      unfold esScanLogFiles
      have hstep1 : scanGo o f (l.getLastD 0) none l =
          scanGo o f (l.getLastD 0) none
            ((l.takeWhile (fun x : Nat => decide ((x : Int) ≤ o))).dropLast ++
              (B0 :: l.dropWhile (fun x : Nat => decide ((x : Int) ≤ o)))) := by
        rw [← hldecomp]
      rw [hstep1]
      exact hskip
    -- spec filter over l reduces to the tail filter
    have hfilter_q : l.filter (fun x : Nat => decide ((B0 : Int) < (x : Int) ∧ (x : Int) ≤ f)) =
        (l.dropWhile (fun x : Nat => decide ((x : Int) ≤ o))).filter
          (fun b : Nat => decide ((b : Int) ≤ f)) := by
      conv_lhs => rw [← hsplit]
      rw [List.filter_append]
      have hxnil : (l.takeWhile (fun x : Nat => decide ((x : Int) ≤ o))).filter
          (fun x : Nat => decide ((B0 : Int) < (x : Int) ∧ (x : Int) ≤ f)) = [] := by
        rw [List.filter_eq_nil_iff]
        intro x hx
        have hxb : x ≤ B0 := hxleB0 x hx
        have : (x : Int) ≤ (B0 : Int) := by exact_mod_cast hxb
        simp
        omega
      rw [hxnil, List.nil_append]
      apply List.filter_congr
      intro x hx
      have hxo : o < (x : Int) := hymem x hx
      have hBx : (B0 : Int) < (x : Int) := lt_of_le_of_lt hB0le hxo
      by_cases hxf : (x : Int) ≤ f
      · simp [hBx, hxf]
      · simp [hxf]
    cases hys : l.dropWhile (fun x : Nat => decide ((x : Int) ≤ o)) with
    | nil =>
      -- every base is ≤ o, so B0 is the last base B and equals o
      have hxs_l : l.takeWhile (fun x : Nat => decide ((x : Int) ≤ o)) = l := by
        conv_rhs => rw [← hsplit, hys, List.append_nil]
      have hBB0 : B0 = B := by
        rw [hxs_l] at hB0
        rw [hB0] at hB
        injection hB
      have hB0o : (B0 : Int) = o := le_antisymm hB0le (by rw [hBB0]; exact hoB)
      rw [hys] at hscan0
      have hB0f : ¬ (B0 : Int) > f := by omega
      have hB0ne : ¬ ((B0 : Int) ≠ o) := by omega
      have hB0ge : (B0 : Int) ≥ o := le_of_eq hB0o.symm
      constructor
      · rw [hscan0, hspec, hfilter_q, hys]
        simp [scanGo, hB0ge, hB0ne, hB0f]
      · rw [hscan0]
        simp [scanGo, hB0ge, hB0ne, hB0f]
    | cons c t =>
      -- the tail is non-empty: the loop yields B0 followed by the tail filter
      have htail := scanGo_tail (o := o) (f := f) (L := l.getLastD 0)
        (l.dropWhile (fun x : Nat => decide ((x : Int) ≤ o))) B0 hypair hymem
      rw [hys] at htail
      have hstep : esScanLogFiles l o f =
          scanGo o f (l.getLastD 0) (some B0) (c :: t) := by
        rcases lt_or_eq_of_le hB0le with hlt | heq
        · rw [hscan0, hys]
          exact scanGo_skip_step hlt hof
        · rw [hscan0, hys]
          have hB0ge : (B0 : Int) ≥ o := le_of_eq heq.symm
          have hB0ne : ¬ ((B0 : Int) ≠ o) := by omega
          have hB0f : ¬ (B0 : Int) > f := by omega
          simp [scanGo, hB0ge, hB0ne, hB0f]
      constructor
      · rw [hstep, htail, hspec, hfilter_q, hys]
      · rw [hstep, htail]
        exact List.cons_ne_nil _ _
  · intro hBo
    have hall : ∀ b ∈ l, (b : Int) < o := by
      intro b hb
      have hbB : b ≤ B := mem_le_last h1 hB b hb
      have : (b : Int) ≤ (B : Int) := by exact_mod_cast hbB
      omega
    unfold esScanLogFiles
    have := scanGo_skip_all (L := l.getLastD 0) hof l [] none hall
    rw [List.append_nil] at this
    rw [this]
    cases hgl : l.getLast? with
    | none => rfl
    | some x => rfl

/-- Auxiliary: the binary-search loop never raises `CouldNotFindOffset`. -/
theorem searchLoop_ne_cnf (es : List IndexEntry) (t : Int) :
    ∀ (fuel : Nat) (fl cl : Int) (fe : IndexEntry),
      searchLoop es t fuel fl cl fe ≠ some (.error .couldNotFindOffset) := by
  intro fuel
  induction fuel with
  | zero => intro fl cl fe; simp [searchLoop]
  | succ n ih =>
    intro fl cl fe
    simp only [searchLoop]
    split
    · simp
    split
    · simp
    split
    · exact ih _ _ _
    split
    · simp
    split
    · exact ih _ _ _
    · simp

/-- Auxiliary: `IndexFile.search` on an open file never raises
`CouldNotFindOffset`. -/
theorem searchEntries_ne_cnf (fuel : Nat) (es : List IndexEntry) (t : Int) :
    searchEntries fuel es t ≠ some (.error .couldNotFindOffset) := by
  cases es with
  | nil => simp [searchEntries]
  | cons e0 rest =>
    simp only [searchEntries]
    by_cases h : (e0.rel : Int) > t
    · rw [if_pos h]
      simp
    · rw [if_neg h]
      exact searchLoop_ne_cnf _ _ _ _ _ _

/-- Auxiliary: `IndexFile.search` never raises `CouldNotFindOffset`. -/
theorem indexSearch_ne_cnf (fuel : Nat) (seg : Seg) (t : Int) :
    indexSearch fuel seg t ≠ some (.error .couldNotFindOffset) := by
  unfold indexSearch
  split
  · simp
  · exact searchEntries_ne_cnf _ _ _

/-- Auxiliary: `LogFile.get` never raises `CouldNotFindOffset`. -/
theorem logFileGet_ne_cnf (fuel : Nat) (seg : Seg) (off : Int) (oEnd : Option Int) :
    logFileGet fuel seg off oEnd ≠ some (.error .couldNotFindOffset) := by
  unfold logFileGet
  split
  · simp
  · next e heq =>
    have hne := indexSearch_ne_cnf fuel seg (off - (seg.base : Int))
    rw [heq] at hne
    simpa using hne
  · next pr heq =>
    by_cases h1 : oEnd = none
    · simp only [if_pos h1]
      split <;> simp
    · by_cases h2 : (oEnd.getD off) = -1
      · simp only [if_neg h1, if_pos h2]
        split <;> simp
      · by_cases h3 : (oEnd.getD off) = off
        · simp only [if_neg h1, if_neg h2, if_pos h3]
          split <;> simp
        · simp only [if_neg h1, if_neg h2, if_neg h3]
          cases hs2 : indexSearch fuel seg ((oEnd.getD off) - (seg.base : Int)) with
          | none => simp
          | some r =>
            cases r with
            | error e =>
              have hne := indexSearch_ne_cnf fuel seg ((oEnd.getD off) - (seg.base : Int))
              rw [hs2] at hne
              simpa using hne
            | ok v =>
              split
              · simp
              · next e hcontra => simp at hcontra
              · next a hcontra => split <;> simp

/-- Auxiliary: the multi-segment read loop never raises
`CouldNotFindOffset`. -/
theorem multiGet_ne_cnf (fuel : Nat) (segs : List Seg) (offset : Nat) (finalOff : Int) :
    ∀ sel : List Nat,
      multiGet fuel segs offset finalOff sel ≠ some (.error .couldNotFindOffset) := by
  intro sel
  induction sel with
  | nil => simp [multiGet]
  | cons b rest ih =>
    simp only [multiGet]
    split
    · simp
    · next e heq =>
      have hne := logFileGet_ne_cnf fuel (findSegD segs b)
        ((if (b : Int) > (offset : Int) then b else offset : Nat) : Int)
        (some (if rest = [] then finalOff else -1))
      rw [heq] at hne
      simpa using hne
    · next part heq =>
      split
      · simp
      · next e heq2 =>
        rw [heq2] at ih
        simpa using ih
      · simp

/-- Auxiliary: `EventSource._get` unfolded, with the local bindings of the
source inlined. -/
theorem esGetRaw_eq (fuel : Nat) (st : ESState) (offset n : Nat) :
    esGetRaw fuel st offset n =
      (match esScanLogFiles (if st.logFiles = [] then sortedBases st.segs else st.logFiles)
          (offset : Int) ((offset : Int) - 1 + (n : Int)) with
       | [] => some (.error .couldNotFindOffset)
       | [b] => logFileGet fuel (findSegD st.segs b) (offset : Int)
           (some ((offset : Int) - 1 + (n : Int)))
       | sel => multiGet fuel st.segs offset ((offset : Int) - 1 + (n : Int)) sel) := by
  cases hE : esScanLogFiles (if st.logFiles = [] then sortedBases st.segs else st.logFiles)
      (offset : Int) ((offset : Int) - 1 + (n : Int)) with
  | nil => simp [esGetRaw, hE]
  | cons b rest =>
    cases rest with
    | nil => simp [esGetRaw, hE]
    | cons c r2 => simp [esGetRaw, hE]

/-- C3, counterexample.  With ascending bases `[0, 5]` and the requested
range `[7, 9]` (offset 7 is at least the smallest base 0, and segment 5
covers offset 7), the spec's selected list is `[5]` — the largest base
`≤ 7` — but `_scan_log_files` selects nothing, so `get`/`get_batch` raise
`CouldNotFindOffset` although a segment covers the start offset. -/
theorem c3_selection_counterexample :
    esScanLogFiles [0, 5] 7 9 = [] ∧
    specSelect [0, 5] 7 9 = [5] ∧
    ([] : List Nat) ≠ [5] := by
  decide

/-- C3 amended.  For every ascending non-empty base list whose smallest base
is at most the requested offset: if the offset is at most the largest base,
the selected-segment list equals the spec's list (the largest base
`≤ offset` followed by every subsequent base `≤ final`), is non-empty, and
`_get` does not raise `CouldNotFindOffset`; but if the offset exceeds the
largest base, the selected list is empty and `_get` raises
`CouldNotFindOffset` even though the last segment covers the offset. -/
theorem c3_selection_amended (l : List Nat) (offset n B : Nat) (f : Int)
    (hn : 1 ≤ n) (h1 : l.Pairwise (· < ·)) (hB : l.getLast? = some B)
    (h3 : l.headD 0 ≤ offset) (hf : f = (offset : Int) - 1 + n) :
    (offset ≤ B →
      esScanLogFiles l (offset : Int) f = specSelect l (offset : Int) f ∧
      esScanLogFiles l (offset : Int) f ≠ [] ∧
      (∀ (st : ESState) (fuel : Nat), st.logFiles = l →
        esGetRaw fuel st offset n ≠ some (.error .couldNotFindOffset))) ∧
    (B < offset →
      esScanLogFiles l (offset : Int) f = [] ∧
      (∀ (st : ESState) (fuel : Nat), st.logFiles = l →
        esGetRaw fuel st offset n = some (.error .couldNotFindOffset))) := by
  have hlne : l ≠ [] := by
    intro hcon
    rw [hcon] at hB
    simp at hB
  have h3c : ((l.headD 0 : Nat) : Int) ≤ (offset : Int) := by exact_mod_cast h3
  have hof : (offset : Int) ≤ f := by
    have hn1 : (1 : Int) ≤ (n : Int) := by exact_mod_cast hn
    omega
  have hchar := esScan_char l (offset : Int) f h1 hB h3c hof
  constructor
  · intro hoB
    have hoBc : (offset : Int) ≤ (B : Int) := by exact_mod_cast hoB
    obtain ⟨heq, hne⟩ := hchar.1 hoBc
    refine ⟨heq, hne, ?_⟩
    intro st fuel hlf
    rw [esGetRaw_eq, hlf, if_neg hlne, ← hf]
    cases hsel : esScanLogFiles l (offset : Int) f with
    | nil => exact absurd hsel hne
    | cons b rest =>
      cases rest with
      | nil => exact logFileGet_ne_cnf _ _ _ _
      | cons c rest2 => exact multiGet_ne_cnf _ _ _ _ _
  · intro hBo
    have hBoc : (B : Int) < (offset : Int) := by exact_mod_cast hBo
    have hempty := hchar.2 hBoc
    refine ⟨hempty, ?_⟩
    intro st fuel hlf
    rw [esGetRaw_eq, hlf, if_neg hlne, ← hf, hempty]

/-- Witness for `c3_selection_amended`: bases `[0, 5]`, offset 3, batch size
4 (final offset 6), on a state whose `_log_files` is `[0, 5]`. -/
theorem c3_selection_amended_witness :
    1 ≤ 4 ∧ ([0, 5] : List Nat).Pairwise (· < ·) ∧
    ([0, 5] : List Nat).getLast? = some 5 ∧
    ([0, 5] : List Nat).headD 0 ≤ 3 ∧
    (6 : Int) = (3 : Nat) - 1 + (4 : Nat) ∧
    ((3 ≤ 5 →
      esScanLogFiles [0, 5] 3 6 = specSelect [0, 5] 3 6 ∧
      esScanLogFiles [0, 5] 3 6 ≠ [] ∧
      (∀ (st : ESState) (fuel : Nat), st.logFiles = [0, 5] →
        esGetRaw fuel st 3 4 ≠ some (.error .couldNotFindOffset))) ∧
     (5 < 3 →
      esScanLogFiles [0, 5] 3 6 = [] ∧
      (∀ (st : ESState) (fuel : Nat), st.logFiles = [0, 5] →
        esGetRaw fuel st 3 4 = some (.error .couldNotFindOffset)))) :=
  ⟨by decide, by decide, by decide, by decide, by decide,
    c3_selection_amended [0, 5] 3 4 5 6 (by decide) (by decide) (by decide)
      (by decide) (by decide)⟩

/-! ### Binary-search lemmas (C4) -/

/-- Entry number `i` of an index file, by natural number. -/
def entAt (es : List IndexEntry) (i : Nat) : IndexEntry := es.getD i ⟨0, 0⟩

/-- Auxiliary: strictly increasing entries have strictly increasing
relative offsets at increasing positions. -/
theorem entAt_lt {es : List IndexEntry} (hpair : es.Pairwise (fun a b => a.rel < b.rel))
    {i j : Nat} (hij : i < j) (hj : j < es.length) :
    (entAt es i).rel < (entAt es j).rel := by
  have hi : i < es.length := lt_trans hij hj
  rw [entAt, entAt, List.getD_eq_getElem?_getD, List.getD_eq_getElem?_getD,
    List.getElem?_eq_getElem hi, List.getElem?_eq_getElem hj]
  exact List.pairwise_iff_getElem.mp hpair i j hi hj hij

/-- Auxiliary: the binary-search loop on a range bracketing the target
(`entries[floor].rel ≤ target < entries[ceil].rel`) returns the floor
entry of the range. -/
theorem searchLoop_mid (es : List IndexEntry) (t : Int)
    (hpair : es.Pairwise (fun a b => a.rel < b.rel)) :
    ∀ (fuel fl cl : Nat) (fe : IndexEntry),
      fl < cl → cl ≤ es.length - 1 →
      ((entAt es fl).rel : Int) ≤ t → t < ((entAt es cl).rel : Int) →
      fe = entAt es fl →
      cl - fl ≤ fuel →
      ∃ j : Nat, fl ≤ j ∧ j < cl ∧
        ((entAt es j).rel : Int) ≤ t ∧ t < ((entAt es (j + 1)).rel : Int) ∧
        searchLoop es t fuel (fl : Int) (cl : Int) fe =
          some (.ok ((entAt es j).rel, (entAt es j).pos)) := by
  intro fuel
  induction fuel with
  | zero =>
    intro fl cl fe hflcl hcl hfl hclrel hfe hfuel
    omega
  | succ n ih =>
    intro fl cl fe hflcl hcl hfl hclrel hfe hfuel
    have hlen : 0 < es.length := by omega
    have hclen : cl < es.length := by omega
    have hmidcast : ((fl : Int) + (cl : Int)) / 2 = (((fl + cl) / 2 : Nat) : Int) := by
      push_cast
      rfl
    have hmid_lb : fl ≤ (fl + cl) / 2 := by omega
    have hmid_ub : (fl + cl) / 2 ≤ cl - 1 := by omega
    have hmidlen : (fl + cl) / 2 < es.length := by omega
    have hgetEnt : getEnt es (((fl : Int) + (cl : Int)) / 2) = entAt es ((fl + cl) / 2) := by
      rw [hmidcast]
      unfold getEnt entAt
      rw [Int.toNat_natCast]
    simp only [searchLoop, hgetEnt]
    by_cases hc1 : ((entAt es ((fl + cl) / 2)).rel : Int) = t
    · rw [if_pos hc1]
      refine ⟨(fl + cl) / 2, hmid_lb, by omega, le_of_eq hc1, ?_, rfl⟩
      have hstep : (entAt es ((fl + cl) / 2)).rel < (entAt es ((fl + cl) / 2 + 1)).rel := by
        apply entAt_lt hpair (by omega)
        omega
      have : ((entAt es ((fl + cl) / 2)).rel : Int) <
          ((entAt es ((fl + cl) / 2 + 1)).rel : Int) := by exact_mod_cast hstep
      omega
    · rw [if_neg hc1]
      by_cases hgt : ((entAt es ((fl + cl) / 2)).rel : Int) > t
      · -- probe overshoots the target
        have hmid_ne_fl : (fl + cl) / 2 ≠ fl := by
          intro hcon
          rw [hcon] at hgt
          omega
        by_cases hc2 : (((fl + cl) / 2 : Nat) : Int) = (fl : Int) + 1
        · rw [if_pos ⟨hgt, by rw [hmidcast]; exact hc2⟩]
          have hmid_eq : (fl + cl) / 2 = fl + 1 := by exact_mod_cast hc2
          refine ⟨fl, le_rfl, hflcl, hfl, ?_, by rw [hfe]⟩
          rw [← hmid_eq]
          exact hgt
        · rw [if_neg (by
            intro hcon
            exact hc2 (by rw [← hmidcast]; exact hcon.2))]
          rw [if_pos hgt]
          have hne1 : (fl + cl) / 2 ≠ fl + 1 := by
            intro hcon
            apply hc2
            rw [hcon]
            rfl
          have hmid_ge : fl + 2 ≤ (fl + cl) / 2 := by omega
          obtain ⟨j, hj1, hj2, hj3, hj4, hj5⟩ :=
            ih fl ((fl + cl) / 2) fe (by omega) (by omega) hfl hgt hfe (by omega)
          exact ⟨j, hj1, by omega, hj3, hj4, hj5⟩
      · have hlt : ((entAt es ((fl + cl) / 2)).rel : Int) < t := by omega
        rw [if_neg (fun hcon => hgt hcon.1), if_neg hgt]
        by_cases hc3 : (((fl + cl) / 2 : Nat) : Int) = (cl : Int) - 1
        · rw [if_pos ⟨hlt, by rw [hmidcast]; exact hc3⟩]
          have hmid_eq : (fl + cl) / 2 = cl - 1 := by omega
          refine ⟨(fl + cl) / 2, hmid_lb, by omega, le_of_lt hlt, ?_, rfl⟩
          rw [hmid_eq]
          have : cl - 1 + 1 = cl := by omega
          rw [this]
          exact hclrel
        · rw [if_neg (by
            intro hcon
            exact hc3 (by rw [← hmidcast]; exact hcon.2))]
          rw [if_pos hlt]
          have hmid_ne : (fl + cl) / 2 ≠ cl - 1 := by
            intro hcon
            exact hc3 (by rw [hcon]; omega)
          have hmid_le : (fl + cl) / 2 ≤ cl - 2 := by omega
          have hmid_gt_fl : fl < (fl + cl) / 2 := by
            rcases Nat.eq_or_lt_of_le hmid_lb with heq | hlt2
            · exfalso
              have : cl ≤ fl + 1 := by omega
              have hcl1 : cl = fl + 1 := by omega
              rw [← heq] at hmid_ne
              omega
            · exact hlt2
          obtain ⟨j, hj1, hj2, hj3, hj4, hj5⟩ :=
            ih ((fl + cl) / 2) cl (entAt es ((fl + cl) / 2)) (by omega) hcl
              (le_of_lt hlt) hclrel rfl (by omega)
          exact ⟨j, by omega, hj2, hj3, hj4, hj5⟩

/-- Auxiliary: when the target is at least the last relative offset, the
ceiling never moves and the loop walks the floor up to the second-to-last
entry, which it returns. -/
theorem searchLoop_top (es : List IndexEntry) (t : Int)
    (hpair : es.Pairwise (fun a b => a.rel < b.rel)) (h2 : 2 ≤ es.length)
    (hlast : ((entAt es (es.length - 1)).rel : Int) ≤ t) :
    ∀ (fuel fl : Nat) (fe : IndexEntry),
      fl < es.length - 1 →
      (es.length - 1) - fl ≤ fuel →
      searchLoop es t fuel (fl : Int) ((es.length - 1 : Nat) : Int) fe =
        some (.ok ((entAt es (es.length - 2)).rel, (entAt es (es.length - 2)).pos)) := by
  intro fuel
  induction fuel with
  | zero =>
    intro fl fe hfl hfuel
    omega
  | succ n ih =>
    intro fl fe hfl hfuel
    have hmidcast : ((fl : Int) + ((es.length - 1 : Nat) : Int)) / 2 =
        (((fl + (es.length - 1)) / 2 : Nat) : Int) := by
      rfl
    have hmid_lb : fl ≤ (fl + (es.length - 1)) / 2 := by omega
    have hmid_ub : (fl + (es.length - 1)) / 2 ≤ es.length - 2 := by omega
    have hgetEnt : getEnt es (((fl : Int) + ((es.length - 1 : Nat) : Int)) / 2) =
        entAt es ((fl + (es.length - 1)) / 2) := by
      rw [hmidcast]
      unfold getEnt entAt
      rw [Int.toNat_natCast]
    have hmidlt : ((entAt es ((fl + (es.length - 1)) / 2)).rel : Int) < t := by
      have hstep : (entAt es ((fl + (es.length - 1)) / 2)).rel <
          (entAt es (es.length - 1)).rel := by
        apply entAt_lt hpair (by omega)
        omega
      have : ((entAt es ((fl + (es.length - 1)) / 2)).rel : Int) <
          ((entAt es (es.length - 1)).rel : Int) := by exact_mod_cast hstep
      omega
    simp only [searchLoop, hgetEnt]
    rw [if_neg (by omega), if_neg (fun hcon => by omega), if_neg (by omega)]
    by_cases hc : (((fl + (es.length - 1)) / 2 : Nat) : Int) = ((es.length - 1 : Nat) : Int) - 1
    · rw [if_pos ⟨hmidlt, by rw [hmidcast]; exact hc⟩]
      have hmid_eq : (fl + (es.length - 1)) / 2 = es.length - 2 := by omega
      rw [hmid_eq]
    · rw [if_neg (by
        intro hcon
        exact hc (by rw [← hmidcast]; exact hcon.2))]
      rw [if_pos hmidlt]
      have hmid_ne : (fl + (es.length - 1)) / 2 ≠ es.length - 2 := by
        intro hcon
        apply hc
        rw [hcon]
        omega
      have hmid_gt_fl : fl < (fl + (es.length - 1)) / 2 := by omega
      exact ih ((fl + (es.length - 1)) / 2) (entAt es ((fl + (es.length - 1)) / 2))
        (by omega) (by omega)

/-- Auxiliary: an entry position within bounds is a member of the list. -/
theorem entAt_mem {es : List IndexEntry} {j : Nat} (hj : j < es.length) :
    entAt es j ∈ es := by
  rw [entAt, List.getD_eq_getElem?_getD, List.getElem?_eq_getElem hj]
  simp only [Option.getD_some]
  exact List.getElem_mem hj

/-- Auxiliary: an entry bracketing the target from below is the floor
entry. -/
theorem floorEntry_of_bracket :
    ∀ (es : List IndexEntry), es.Pairwise (fun a b => a.rel < b.rel) →
      ∀ (t : Int) (j : Nat), j < es.length →
        ((entAt es j).rel : Int) ≤ t →
        (j + 1 = es.length ∨ t < ((entAt es (j + 1)).rel : Int)) →
        floorEntry es t = some (entAt es j) := by
  intro es
  induction es with
  | nil =>
    intro _ t j hj
    simp at hj
  | cons e rest ih =>
    intro hpair t j hj hle hbr
    rcases List.pairwise_cons.mp hpair with ⟨he, hrest⟩
    cases j with
    | zero =>
      have hee : entAt (e :: rest) 0 = e := rfl
      rw [hee] at hle
      unfold floorEntry
      rw [List.filter_cons_of_pos (by simpa using hle)]
      have hrestnil : rest.filter (fun x : IndexEntry => decide ((x.rel : Int) ≤ t)) = [] := by
        rw [List.filter_eq_nil_iff]
        intro x hx
        rcases hbr with hbr | hbr
        · have hrn : rest = [] := by
            simp at hbr
            exact hbr
          rw [hrn] at hx
          simp at hx
        · cases rest with
          | nil => simp at hx
          | cons r0 r2 =>
            have h1 : entAt (e :: r0 :: r2) 1 = r0 := rfl
            rw [h1] at hbr
            rcases List.mem_cons.mp hx with hx | hx
            · subst hx
              simp
              omega
            · rcases List.pairwise_cons.mp hrest with ⟨hr0, _⟩
              have hlt : r0.rel < x.rel := hr0 x hx
              have : (r0.rel : Int) < (x.rel : Int) := by exact_mod_cast hlt
              simp
              omega
      rw [hrestnil]
      rfl
    | succ j0 =>
      have hjr : j0 < rest.length := by
        simp at hj
        omega
      have hsh : entAt (e :: rest) (j0 + 1) = entAt rest j0 := rfl
      rw [hsh] at hle
      have hmem : entAt rest j0 ∈ rest := entAt_mem hjr
      have het : (e.rel : Int) ≤ t := by
        have hlt : e.rel < (entAt rest j0).rel := he _ hmem
        have : (e.rel : Int) < ((entAt rest j0).rel : Int) := by exact_mod_cast hlt
        omega
      have hbr2 : j0 + 1 = rest.length ∨ t < ((entAt rest (j0 + 1)).rel : Int) := by
        rcases hbr with hbr | hbr
        · left
          simp at hbr
          omega
        · right
          exact hbr
      unfold floorEntry
      rw [List.filter_cons_of_pos (by simpa using het)]
      have hfne : rest.filter (fun x : IndexEntry => decide ((x.rel : Int) ≤ t)) ≠ [] := by
        intro hcon
        have := List.filter_eq_nil_iff.mp hcon (entAt rest j0) hmem
        simp at this
        omega
      obtain ⟨y, ys, hys⟩ : ∃ y ys,
          rest.filter (fun x : IndexEntry => decide ((x.rel : Int) ≤ t)) = y :: ys := by
        cases hcase : rest.filter (fun x : IndexEntry => decide ((x.rel : Int) ≤ t)) with
        | nil => exact absurd hcase hfne
        | cons y ys => exact ⟨y, ys, rfl⟩
      rw [hys, List.getLast?_cons_cons, ← hys]
      have := ih hrest t j0 hjr hle hbr2
      rw [floorEntry] at this
      rw [this, hsh]

/-- C4 amended.  On an index file with at least two strictly increasing
entries and enough fuel: `search` raises `OffsetMissingInIndex` exactly when
the target is below the first entry; for a target between the first and
(strictly below) the last relative offset it returns the floor entry (the
largest `relative_offset ≤ target`); but for a target at or above the last
relative offset it returns the *second-to-last* entry, not the last one as
the claim states.  (On a single-entry index the search terminates only when
the target does not exceed the entry, which is claim C5.) -/
theorem c4_floor_amended (es : List IndexEntry) (t : Int) (fuel : Nat)
    (hpair : es.Pairwise (fun a b => a.rel < b.rel)) (h2 : 2 ≤ es.length)
    (hfuel : es.length ≤ fuel) :
    (t < (((es.headD ⟨0, 0⟩).rel : Nat) : Int) →
      searchEntries fuel es t = some (.error .offsetMissingInIndex)) ∧
    ((((es.headD ⟨0, 0⟩).rel : Nat) : Int) ≤ t →
      t < ((entAt es (es.length - 1)).rel : Int) →
      ∀ e, floorEntry es t = some e →
        searchEntries fuel es t = some (.ok (e.rel, e.pos))) ∧
    (((entAt es (es.length - 1)).rel : Int) ≤ t →
      searchEntries fuel es t = some (.ok ((entAt es (es.length - 2)).rel,
        (entAt es (es.length - 2)).pos))) := by
  obtain ⟨e0, rest, rfl⟩ : ∃ e0 rest, es = e0 :: rest := by
    cases es with
    | nil => simp at h2
    | cons e0 rest => exact ⟨e0, rest, rfl⟩
  have hhead : (e0 :: rest).headD ⟨0, 0⟩ = e0 := rfl
  have hent0 : entAt (e0 :: rest) 0 = e0 := rfl
  have hclcast : ((e0 :: rest).length : Int) - 1 =
      (((e0 :: rest).length - 1 : Nat) : Int) := by
    simp
  refine ⟨?_, ?_, ?_⟩
  · intro hlt
    rw [hhead] at hlt
    simp only [searchEntries]
    rw [if_pos hlt]
  · intro hle hlast e he
    rw [hhead] at hle
    simp only [searchEntries]
    rw [if_neg (by omega), hclcast]
    obtain ⟨j, hj1, hj2, hj3, hj4, hj5⟩ :=
      searchLoop_mid (e0 :: rest) t hpair fuel 0 ((e0 :: rest).length - 1) e0
        (by omega) le_rfl (by rw [hent0]; exact hle) hlast hent0.symm (by omega)
    have hfe := floorEntry_of_bracket (e0 :: rest) hpair t j (by omega) hj3 (Or.inr hj4)
    rw [he] at hfe
    injection hfe with hfe
    rw [← hfe] at hj5
    show searchLoop (e0 :: rest) t fuel ((0 : Nat) : Int)
      (((e0 :: rest).length - 1 : Nat) : Int) e0 = _
    exact hj5
  · intro hlast
    have hle0 : ((e0.rel : Nat) : Int) ≤ t := by
      have hlt : (entAt (e0 :: rest) 0).rel <
          (entAt (e0 :: rest) ((e0 :: rest).length - 1)).rel :=
        entAt_lt hpair (by omega) (by omega)
      rw [hent0] at hlt
      have h2c : ((e0.rel : Nat) : Int) <
          ((entAt (e0 :: rest) ((e0 :: rest).length - 1)).rel : Int) := by
        exact_mod_cast hlt
      omega
    simp only [searchEntries]
    rw [if_neg (by omega), hclcast]
    exact searchLoop_top (e0 :: rest) t hpair h2 hlast fuel 0 e0 (by omega) (by omega)

/-- Witness for `c4_floor_amended`: the three-entry index
`[(0,0), (5,20), (9,40)]` with target 7 and fuel 3. -/
theorem c4_floor_amended_witness :
    ([⟨0, 0⟩, ⟨5, 20⟩, ⟨9, 40⟩] : List IndexEntry).Pairwise (fun a b => a.rel < b.rel) ∧
    2 ≤ ([⟨0, 0⟩, ⟨5, 20⟩, ⟨9, 40⟩] : List IndexEntry).length ∧
    ([⟨0, 0⟩, ⟨5, 20⟩, ⟨9, 40⟩] : List IndexEntry).length ≤ 3 ∧
    ((7 : Int) < ((([⟨0, 0⟩, ⟨5, 20⟩, ⟨9, 40⟩] : List IndexEntry).headD ⟨0, 0⟩).rel : Int) →
      searchEntries 3 [⟨0, 0⟩, ⟨5, 20⟩, ⟨9, 40⟩] 7 =
        some (.error .offsetMissingInIndex)) ∧
    (((((([⟨0, 0⟩, ⟨5, 20⟩, ⟨9, 40⟩] : List IndexEntry).headD ⟨0, 0⟩).rel : Nat)) : Int) ≤ 7 →
      (7 : Int) < ((entAt [⟨0, 0⟩, ⟨5, 20⟩, ⟨9, 40⟩]
          (([⟨0, 0⟩, ⟨5, 20⟩, ⟨9, 40⟩] : List IndexEntry).length - 1)).rel : Int) →
      ∀ e, floorEntry [⟨0, 0⟩, ⟨5, 20⟩, ⟨9, 40⟩] 7 = some e →
        searchEntries 3 [⟨0, 0⟩, ⟨5, 20⟩, ⟨9, 40⟩] 7 = some (.ok (e.rel, e.pos))) := by
  have h := c4_floor_amended [⟨0, 0⟩, ⟨5, 20⟩, ⟨9, 40⟩] 7 3 (by decide) (by decide) (by decide)
  exact ⟨by decide, by decide, by decide, h.1, h.2.1⟩

/-! ### Clean-state invariant (C7, C8) -/

/-- The default record used with `getD`. -/
def dRec : Record := ⟨0, 0, []⟩

/-- The active (last) segment of a store. -/
def lastSeg (st : ESState) : Seg := (st.segs.getLast?).getD (emptySeg 0)

/-- The numeric value of `__last_offset` (0 when `None`). -/
def lastOffVal (st : ESState) : Nat := st.lastOffset.getD 0

/-- The invariant of every state reached by a fresh `EventSource` after at
least one successful write, within a single session. -/
structure WfState (st : ESState) : Prop where
  segsNe : st.segs ≠ []
  basesSorted : (st.segs.map Seg.base).Pairwise (· < ·)
  activeLast : st.activeBase = (lastSeg st).base
  allCreated : ∀ s ∈ st.segs, s.logCreated = true ∧ s.indexCreated = true
  allNonempty : ∀ s ∈ st.segs, s.records ≠ [] ∧ s.index ≠ []
  lastEntryPos : ∀ s ∈ st.segs, ∃ k, k < s.records.length ∧
    (s.index.getLast?.getD ⟨0, 0⟩).pos = recStart s.records k
  lastOff : st.lastOffset = some ((lastSeg st).records.getLast?.getD dRec).offset
  basesLe : ∀ s ∈ st.segs, s.base ≤ lastOffVal st
  track : ∃ sVal, st.lastIndexSize = some sVal ∧
    metaDataSize + ((lastSeg st).index.length - 1) * (st.indexInterval + 1) ≤ sVal ∧
    sVal ≤ logSize (lastSeg st)
  idxBound : ∀ s ∈ st.segs,
    metaDataSize + (s.index.length - 1) * (st.indexInterval + 1) ≤ logSize s

/-- Auxiliary: inserting below everything prepends. -/
theorem insertAsc_of_le (x : Nat) (l : List Nat) (h : ∀ y ∈ l, x ≤ y) :
    insertAsc x l = x :: l := by
  cases l with
  | nil => rfl
  | cons y ys =>
    unfold insertAsc
    rw [if_pos (h y (List.mem_cons_self y ys))]

/-- Auxiliary: sorting an already ascending list is the identity. -/
theorem sortAsc_sorted_id : ∀ {l : List Nat}, l.Pairwise (· < ·) → sortAsc l = l := by
  intro l
  induction l with
  | nil => intro h; rfl
  | cons x xs ih =>
    intro h
    rcases List.pairwise_cons.mp h with ⟨hx, hxs⟩
    show insertAsc x (sortAsc xs) = x :: xs
    rw [ih hxs]
    exact insertAsc_of_le x xs (fun y hy => le_of_lt (hx y hy))

/-- Auxiliary: with strictly increasing bases, looking up the last
segment's base finds the last segment. -/
theorem findSeg_last :
    ∀ {segs : List Seg}, (segs.map Seg.base).Pairwise (· < ·) →
      ∀ {s : Seg}, segs.getLast? = some s → findSeg segs s.base = some s := by
  intro segs
  induction segs with
  | nil => intro _ s h; simp at h
  | cons a t ih =>
    intro hs s hlast
    cases t with
    | nil =>
      simp at hlast
      subst hlast
      simp [findSeg]
    | cons b t2 =>
      rw [List.getLast?_cons_cons] at hlast
      have hmem : s ∈ b :: t2 := by
        have harr := List.dropLast_append_getLast? s (Option.mem_def.mpr hlast)
        rw [← harr]
        exact List.mem_append_right _ (List.mem_singleton_self s)
      have hlt : a.base < s.base := by
        rcases List.pairwise_cons.mp hs with ⟨ha, _⟩
        exact ha s.base (List.mem_map_of_mem Seg.base hmem)
      unfold findSeg
      rw [List.find?_cons_of_neg _ (by simp; omega)]
      exact ih (List.pairwise_cons.mp hs).2 hlast

/-- Auxiliary: with strictly increasing bases, updating at the last
segment's base rewrites exactly the last segment. -/
theorem updateSeg_last :
    ∀ {segs : List Seg}, (segs.map Seg.base).Pairwise (· < ·) →
      ∀ {s : Seg}, segs.getLast? = some s → ∀ (f : Seg → Seg),
        updateSeg segs s.base f = segs.dropLast ++ [f s] := by
  intro segs
  induction segs with
  | nil => intro _ s h; simp at h
  | cons a t ih =>
    intro hs s hlast f
    cases t with
    | nil =>
      simp at hlast
      subst hlast
      simp [updateSeg]
    | cons b t2 =>
      rw [List.getLast?_cons_cons] at hlast
      have hmem : s ∈ b :: t2 := by
        have harr := List.dropLast_append_getLast? s (Option.mem_def.mpr hlast)
        rw [← harr]
        exact List.mem_append_right _ (List.mem_singleton_self s)
      have hlt : a.base < s.base := by
        rcases List.pairwise_cons.mp hs with ⟨ha, _⟩
        exact ha s.base (List.mem_map_of_mem Seg.base hmem)
      show (a :: b :: t2).map _ = (a :: b :: t2).dropLast ++ [f s]
      rw [List.map_cons, List.dropLast_cons₂, List.cons_append]
      rw [if_neg (by simp; omega)]
      exact congrArg (a :: ·) (ih (List.pairwise_cons.mp hs).2 hlast f)

/-- Auxiliary: segments keep their files once written. -/
theorem ensureLogSeg_id {st : ESState} (h : WfState st) :
    ensureLogSeg st.segs st.activeBase = st.segs := by
  have hlast : st.segs.getLast? = some (lastSeg st) := by
    cases hgl : st.segs.getLast? with
    | none => exact absurd (List.getLast?_eq_none_iff.mp hgl) h.segsNe
    | some s => rw [lastSeg, hgl]; rfl
  have hfind : findSeg st.segs st.activeBase = some (lastSeg st) := by
    rw [h.activeLast]
    exact findSeg_last h.basesSorted hlast
  unfold ensureLogSeg
  rw [if_pos (by rw [hfind]; rfl)]
  have hcongr : ∀ s ∈ st.segs,
      (if s.base == st.activeBase then { s with logCreated := true } else s) = s := by
    intro s hs
    by_cases hb : s.base == st.activeBase
    · rw [if_pos hb]
      obtain ⟨hl, _⟩ := h.allCreated s hs
      cases s
      simp at hl
      simp [hl]
    · rw [if_neg hb]
  rw [List.map_congr_left hcongr]
  simp

/-- Auxiliary: seeking to the byte position of record `k` and parsing
forward yields exactly the records from `k` on. -/
theorem dropToPos_drop :
    ∀ (rs : List Record) (k cur : Nat), k ≤ rs.length →
      dropToPos (cur + ((rs.take k).map recSize).sum) rs cur = rs.drop k := by
  intro rs
  induction rs with
  | nil =>
    intro k cur hk
    simp at hk
    subst hk
    rfl
  | cons r rr ih =>
    intro k cur hk
    cases k with
    | zero =>
      show dropToPos (cur + 0) (r :: rr) cur = r :: rr
      unfold dropToPos
      rw [if_neg (by omega)]
    | succ k0 =>
      have hk0 : k0 ≤ rr.length := by simpa using hk
      show dropToPos (cur + (recSize r + ((rr.take k0).map recSize).sum)) (r :: rr) cur =
        rr.drop k0
      unfold dropToPos
      rw [if_pos (by unfold recSize metaDataSize; omega)]
      have := ih k0 (cur + recSize r) hk0
      rw [← this]
      congr 1
      omega

/-- Auxiliary: dropping a strict prefix keeps the last element. -/
theorem getLast?_drop_eq :
    ∀ (l : List Record) (k : Nat), k < l.length → (l.drop k).getLast? = l.getLast? := by
  intro l
  induction l with
  | nil => intro k hk; simp at hk
  | cons a t ih =>
    intro k hk
    cases k with
    | zero => rfl
    | succ k0 =>
      have hk0 : k0 < t.length := by simpa using hk
      show (t.drop k0).getLast? = (a :: t).getLast?
      rw [ih k0 hk0]
      cases t with
      | nil => simp at hk0
      | cons b t2 => rw [List.getLast?_cons_cons]

/-- Auxiliary: appending records does not move the start of an existing
record. -/
theorem recStart_append (rs l2 : List Record) (k : Nat) (hk : k ≤ rs.length) :
    recStart (rs ++ l2) k = recStart rs k := by
  unfold recStart
  rw [List.take_append_of_le_length hk]

/-- Auxiliary: the start position of the one-past-the-end record is the file
size. -/
theorem recStart_eq_size (rs l2 : List Record) :
    recStart (rs ++ l2) rs.length = (rs.map recSize).sum := by
  unfold recStart
  rw [List.take_append_of_le_length le_rfl, List.take_length]

/-- Auxiliary: `get_last_offset` on a well-formed segment returns the offset
of its final record. -/
theorem getLastOffset_wf (s : Seg)
    (hcreated : s.logCreated = true ∧ s.indexCreated = true)
    (hne : s.records ≠ [] ∧ s.index ≠ [])
    (hpos : ∃ k, k < s.records.length ∧
      (s.index.getLast?.getD ⟨0, 0⟩).pos = recStart s.records k) :
    getLastOffset s = .ok (s.records.getLast?.getD dRec).offset := by
  obtain ⟨k, hk, hkpos⟩ := hpos
  unfold getLastOffset
  rw [hcreated.2, show (!true) = false from rfl, if_neg (by simp)]
  obtain ⟨e, he⟩ : ∃ e, s.index.getLast? = some e := by
    cases hgl : s.index.getLast? with
    | none => exact absurd (List.getLast?_eq_none_iff.mp hgl) hne.2
    | some e => exact ⟨e, rfl⟩
  rw [he, hcreated.1, show (!true) = false from rfl]
  simp only [Bool.false_eq_true, if_false]
  have hepos : e.pos = recStart s.records k := by
    rw [he] at hkpos
    exact hkpos
  have hdrop : dropToPos e.pos s.records 0 = s.records.drop k := by
    have := dropToPos_drop s.records k 0 (le_of_lt hk)
    rw [hepos]
    unfold recStart
    have hz : ((s.records.take k).map recSize).sum =
        0 + ((s.records.take k).map recSize).sum := by omega
    rw [hz]
    exact this
  rw [hdrop, getLast?_drop_eq s.records k hk]
  obtain ⟨r, hr⟩ : ∃ r, s.records.getLast? = some r := by
    cases hgl : s.records.getLast? with
    | none => exact absurd (List.getLast?_eq_none_iff.mp hgl) hne.1
    | some r => exact ⟨r, rfl⟩
  rw [hr]
  rfl

/-- Auxiliary: reopening the directory of a well-formed store recovers the
last written offset. -/
theorem esOpen_recover (st : ESState) (h : WfState st) (maxLog interval : Nat) :
    esOpen st.segs maxLog interval =
      .ok ⟨maxLog, interval, st.lastOffset, [], st.segs, (lastSeg st).base, none⟩ := by
  have hlast : st.segs.getLast? = some (lastSeg st) := by
    cases hgl : st.segs.getLast? with
    | none => exact absurd (List.getLast?_eq_none_iff.mp hgl) h.segsNe
    | some s => rw [lastSeg, hgl]; rfl
  have hfilter : st.segs.filter (fun s => s.logCreated) = st.segs :=
    List.filter_eq_self.mpr (fun s hs => by rw [(h.allCreated s hs).1])
  have hbases : sortedBases st.segs = st.segs.map Seg.base := by
    unfold sortedBases
    rw [hfilter]
    exact sortAsc_sorted_id h.basesSorted
  have hgl2 : (sortedBases st.segs).getLast? = some (lastSeg st).base := by
    rw [hbases, List.getLast?_map, hlast]
    rfl
  have hfind : findSegD st.segs (lastSeg st).base = lastSeg st := by
    unfold findSegD
    rw [findSeg_last h.basesSorted hlast]
    rfl
  have hglo : getLastOffset (findSegD st.segs (lastSeg st).base) =
      .ok ((lastSeg st).records.getLast?.getD dRec).offset := by
    rw [hfind]
    have hmem : lastSeg st ∈ st.segs := by
      have harr := List.dropLast_append_getLast? (lastSeg st) (Option.mem_def.mpr hlast)
      rw [← harr]
      exact List.mem_append_right _ (List.mem_singleton_self _)
    exact getLastOffset_wf (lastSeg st) (h.allCreated _ hmem) (h.allNonempty _ hmem)
      (h.lastEntryPos _ hmem)
  unfold esOpen
  rw [hgl2]
  simp only [hglo]
  rw [h.lastOff]

/-- Auxiliary: the last segment of a non-empty store. -/
theorem lastSeg_getLast {st : ESState} (h : st.segs ≠ []) :
    st.segs.getLast? = some (lastSeg st) := by
  cases hgl : st.segs.getLast? with
  | none => exact absurd (List.getLast?_eq_none_iff.mp hgl) h
  | some s => rw [lastSeg, hgl]; rfl

/-- Auxiliary: creating the `.log` file of an absent base appends a fresh
segment. -/
theorem ensureLogSeg_absent {segs : List Seg} {b : Nat} (h : findSeg segs b = none) :
    ensureLogSeg segs b = segs ++ [⟨b, [], [], true, false⟩] := by
  unfold ensureLogSeg
  rw [if_neg (by simp [h])]

/-- Auxiliary: updating at a base held only by the appended fresh segment
rewrites exactly that segment. -/
theorem updateSeg_append_fresh {segs : List Seg} {b : Nat}
    (hnb : ∀ s ∈ segs, s.base ≠ b) (e : Seg) (he : e.base = b) (f : Seg → Seg) :
    updateSeg (segs ++ [e]) b f = segs ++ [f e] := by
  unfold updateSeg
  rw [List.map_append]
  congr 1
  · have hid : ∀ s ∈ segs, (if s.base == b then f s else s) = s := by
      intro s hs
      rw [if_neg (by simp only [beq_iff_eq]; exact fun hcc => hnb s hs (by exact_mod_cast hcc))]
    rw [List.map_congr_left hid]
    simp
  · simp [he]

/-- Auxiliary: the exact result of a fitting `LogFile.write` on a store
whose files already exist, with the branch on the index tracker resolved by
`nI`. -/
theorem logWrite_ok_eq2 {maxLog interval : Nat} {segs : List Seg} {a : Nat}
    {lis : Option Nat} {off ts : Nat} {p : List Nat} {L : Seg} {nI : Bool}
    (hp : ¬ p.length > maxMessageSize)
    (hens : ensureLogSeg segs a = segs)
    (hfind : findSegD segs a = L)
    (hfit : ¬ logSize L + (metaDataSize + p.length) > maxLog)
    (hnI : nI = (match lis with
      | none => true
      | some s => decide (logSize L + (metaDataSize + p.length) > s + interval))) :
    logWrite maxLog interval segs a lis off ts p =
      (updateSeg segs a (fun _ =>
        { L with
          records := L.records ++ [⟨off, ts, p⟩]
          index := if nI then L.index ++ [⟨off - L.base, logSize L⟩] else L.index
          logCreated := true
          indexCreated := L.indexCreated || nI }),
       (if nI then some (logSize L + (metaDataSize + p.length)) else lis), none) := by
  subst hfind
  subst hnI
  unfold logWrite
  rw [if_neg hp, hens]
  simp only [if_neg hfit]

/-- Auxiliary: the exact result of the first write into a fresh segment
(absent base, `__last_index_size = None`). -/
theorem logWrite_ok_fresh {maxLog interval : Nat} {segs : List Seg} {b : Nat}
    {off ts : Nat} {p : List Nat}
    (hp : ¬ p.length > maxMessageSize)
    (hnone : findSeg segs b = none)
    (hfit : ¬ 0 + (metaDataSize + p.length) > maxLog) :
    logWrite maxLog interval segs b none off ts p =
      (segs ++ [⟨b, [⟨off, ts, p⟩], [⟨off - b, 0⟩], true, true⟩],
       some (0 + (metaDataSize + p.length)), none) := by
  have hens2 := ensureLogSeg_absent hnone
  have hnb : ∀ s ∈ segs, s.base ≠ b := by
    intro s hs hcc
    have := List.find?_eq_none.mp hnone s hs
    simp at this
    exact this hcc
  have hfind2 : findSegD (segs ++ [⟨b, [], [], true, false⟩]) b =
      ⟨b, [], [], true, false⟩ := by
    unfold findSegD findSeg
    rw [List.find?_append]
    unfold findSeg at hnone
    rw [hnone]
    simp
  unfold logWrite
  rw [if_neg hp, hens2]
  have hfit2 : ¬ logSize (findSegD (segs ++ [⟨b, [], [], true, false⟩]) b) +
      (metaDataSize + p.length) > maxLog := by
    rw [hfind2]
    exact hfit
  simp only [if_neg hfit2]
  rw [hfind2, updateSeg_append_fresh hnb _ rfl]
  simp [logSize]

/-- Auxiliary: the log size after appending one record. -/
theorem logSize_append_rec (L : Seg) (r : Record) (idx : List IndexEntry)
    (lc ic : Bool) :
    logSize { L with
      records := L.records ++ [r]
      index := idx
      logCreated := lc
      indexCreated := ic } = logSize L + recSize r := by
  unfold logSize
  simp

/-- The active segment after appending one record (and, when `nI` is set, a
sparse index entry at the old end-of-file position). -/
def segAppend (st : ESState) (ts : Nat) (p : List Nat) (nI : Bool) : Seg :=
  { lastSeg st with
    records := (lastSeg st).records ++ [⟨nextOffset st, ts, p⟩]
    index := if nI then (lastSeg st).index ++
        [⟨nextOffset st - (lastSeg st).base, logSize (lastSeg st)⟩]
      else (lastSeg st).index
    logCreated := true
    indexCreated := (lastSeg st).indexCreated || nI }

/-- Auxiliary: appending a record (and possibly an index entry) to the
active segment preserves the invariant. -/
theorem wf_append_active (st : ESState) (h : WfState st) (ts : Nat) (p : List Nat)
    (nI : Bool) (lis2 : Option Nat)
    (htrkN : ∃ sv2, lis2 = some sv2 ∧
      metaDataSize + ((segAppend st ts p nI).index.length - 1) * (st.indexInterval + 1) ≤ sv2 ∧
      sv2 ≤ logSize (lastSeg st) + recSize ⟨nextOffset st, ts, p⟩) :
    WfState { st with
      segs := st.segs.dropLast ++ [segAppend st ts p nI]
      lastIndexSize := lis2
      lastOffset := some (nextOffset st) } := by
  have hlast := lastSeg_getLast h.segsNe
  have hNK : nextOffset st = lastOffVal st + 1 := by
    unfold nextOffset lastOffVal
    rw [h.lastOff]
    rfl
  have hmemL : lastSeg st ∈ st.segs := by
    have harr := List.dropLast_append_getLast? (lastSeg st) (Option.mem_def.mpr hlast)
    rw [← harr]
    exact List.mem_append_right _ (List.mem_singleton_self _)
  have hdecomp : st.segs = st.segs.dropLast ++ [lastSeg st] :=
    (List.dropLast_append_getLast? (lastSeg st) (Option.mem_def.mpr hlast)).symm
  have hmemD : ∀ s ∈ st.segs.dropLast, s ∈ st.segs :=
    fun s hs => (List.dropLast_sublist st.segs).mem hs
  obtain ⟨hRne, hIne⟩ := h.allNonempty _ hmemL
  have hglast2 : (st.segs.dropLast ++ [segAppend st ts p nI]).getLast? =
      some (segAppend st ts p nI) := List.getLast?_concat _
  have hlastSeg2 : lastSeg { st with
      segs := st.segs.dropLast ++ [segAppend st ts p nI]
      lastIndexSize := lis2
      lastOffset := some (nextOffset st) } = segAppend st ts p nI := by
    unfold lastSeg
    rw [hglast2]
    rfl
  have hbase2 : (segAppend st ts p nI).base = (lastSeg st).base := rfl
  have hlogSize2 : logSize (segAppend st ts p nI) =
      logSize (lastSeg st) + recSize ⟨nextOffset st, ts, p⟩ := by
    unfold segAppend
    exact logSize_append_rec _ _ _ _ _
  refine ⟨?_, ?_, ?_, ?_, ?_, ?_, ?_, ?_, ?_, ?_⟩
  · simp
  · show ((st.segs.dropLast ++ [segAppend st ts p nI]).map Seg.base).Pairwise (· < ·)
    rw [List.map_append]
    have hmb : (st.segs.map Seg.base).Pairwise (· < ·) := h.basesSorted
    rw [hdecomp, List.map_append] at hmb
    simpa [hbase2] using hmb
  · show st.activeBase = _
    rw [hlastSeg2, hbase2]
    exact h.activeLast
  · intro s hs
    rw [List.mem_append] at hs
    rcases hs with hs | hs
    · exact h.allCreated s (hmemD s hs)
    · rw [List.mem_singleton] at hs
      subst hs
      refine ⟨rfl, ?_⟩
      show ((lastSeg st).indexCreated || nI) = true
      rw [(h.allCreated _ hmemL).2]
      simp
  · intro s hs
    rw [List.mem_append] at hs
    rcases hs with hs | hs
    · exact h.allNonempty s (hmemD s hs)
    · rw [List.mem_singleton] at hs
      subst hs
      refine ⟨by simp [segAppend], ?_⟩
      show (segAppend st ts p nI).index ≠ []
      unfold segAppend
      cases nI with
      | false => simpa using hIne
      | true => simp
  · intro s hs
    rw [List.mem_append] at hs
    rcases hs with hs | hs
    · exact h.lastEntryPos s (hmemD s hs)
    · rw [List.mem_singleton] at hs
      subst hs
      cases nI with
      | true =>
        refine ⟨(lastSeg st).records.length, by simp [segAppend], ?_⟩
        show (((segAppend st ts p true).index.getLast?).getD ⟨0, 0⟩).pos = _
        have hidx : (segAppend st ts p true).index = (lastSeg st).index ++
            [(⟨nextOffset st - (lastSeg st).base, logSize (lastSeg st)⟩ : IndexEntry)] := rfl
        rw [hidx, List.getLast?_concat]
        show logSize (lastSeg st) =
          recStart ((lastSeg st).records ++ [⟨nextOffset st, ts, p⟩]) (lastSeg st).records.length
        rw [recStart_eq_size]
        rfl
      | false =>
        obtain ⟨k, hk, hkpos⟩ := h.lastEntryPos _ hmemL
        refine ⟨k, by simp [segAppend]; omega, ?_⟩
        show (((segAppend st ts p false).index.getLast?).getD ⟨0, 0⟩).pos = _
        have hidx : (segAppend st ts p false).index = (lastSeg st).index := rfl
        rw [hidx, hkpos]
        show recStart (lastSeg st).records k =
          recStart ((lastSeg st).records ++ [⟨nextOffset st, ts, p⟩]) k
        rw [recStart_append _ _ k (le_of_lt hk)]
  · show some (nextOffset st) = some ((lastSeg _).records.getLast?.getD dRec).offset
    rw [hlastSeg2]
    show some (nextOffset st) =
      some ((((lastSeg st).records ++
        [(⟨nextOffset st, ts, p⟩ : Record)]).getLast?.getD dRec)).offset
    rw [List.getLast?_concat]
    rfl
  · intro s hs
    rw [List.mem_append] at hs
    show s.base ≤ (some (nextOffset st)).getD 0
    simp only [Option.getD_some]
    rw [hNK]
    rcases hs with hs | hs
    · have hb := h.basesLe s (hmemD s hs)
      omega
    · rw [List.mem_singleton] at hs
      subst hs
      rw [hbase2]
      have hb := h.basesLe _ hmemL
      omega
  · obtain ⟨sv2, hsv2, hb1, hb2⟩ := htrkN
    refine ⟨sv2, hsv2, ?_, ?_⟩
    · rw [hlastSeg2]
      exact hb1
    · rw [hlastSeg2, hlogSize2]
      exact hb2
  · intro s hs
    rw [List.mem_append] at hs
    rcases hs with hs | hs
    · exact h.idxBound s (hmemD s hs)
    · rw [List.mem_singleton] at hs
      subst hs
      obtain ⟨sv2, hsv2, hb1, hb2⟩ := htrkN
      rw [hlogSize2]
      exact le_trans hb1 hb2

/-- The segment created by the first write after a rollover: base
`next_offset`, one record, one index entry at position 0. -/
def segFresh (st : ESState) (ts : Nat) (p : List Nat) : Seg :=
  ⟨nextOffset st, [⟨nextOffset st, ts, p⟩],
   [⟨nextOffset st - nextOffset st, 0⟩], true, true⟩

/-- Auxiliary: rolling over into a fresh segment and writing the first
record there preserves the invariant. -/
theorem wf_roll_fresh (st : ESState) (h : WfState st)
    (hNK : nextOffset st = lastOffVal st + 1) (ts : Nat) (p : List Nat) :
    WfState { st with
      logFiles := st.logFiles ++ [nextOffset st]
      activeBase := nextOffset st
      segs := st.segs ++ [segFresh st ts p]
      lastIndexSize := some (0 + (metaDataSize + p.length))
      lastOffset := some (nextOffset st) } := by
  have hglast : (st.segs ++ [segFresh st ts p]).getLast? = some (segFresh st ts p) :=
    List.getLast?_concat _
  have hlast2 : lastSeg { st with
      logFiles := st.logFiles ++ [nextOffset st]
      activeBase := nextOffset st
      segs := st.segs ++ [segFresh st ts p]
      lastIndexSize := some (0 + (metaDataSize + p.length))
      lastOffset := some (nextOffset st) } = segFresh st ts p := by
    unfold lastSeg
    rw [hglast]
    rfl
  have hls : logSize (segFresh st ts p) = metaDataSize + p.length := by
    simp [segFresh, logSize, recSize, metaDataSize]
  refine ⟨?_, ?_, ?_, ?_, ?_, ?_, ?_, ?_, ?_, ?_⟩
  · simp
  · show ((st.segs ++ [segFresh st ts p]).map Seg.base).Pairwise (· < ·)
    rw [List.map_append]
    apply List.pairwise_append.mpr
    refine ⟨h.basesSorted, by simp, ?_⟩
    intro a ha b hb
    simp only [List.map_cons, List.map_nil, List.mem_singleton] at hb
    subst hb
    obtain ⟨s, hs, hsb⟩ := List.mem_map.mp ha
    have hle := h.basesLe s hs
    show a < (segFresh st ts p).base
    have hbase : (segFresh st ts p).base = nextOffset st := rfl
    rw [hbase, hNK, ← hsb]
    omega
  · show nextOffset st = _
    rw [hlast2]
    rfl
  · intro s hs
    rw [List.mem_append] at hs
    rcases hs with hs | hs
    · exact h.allCreated s hs
    · rw [List.mem_singleton] at hs
      subst hs
      exact ⟨rfl, rfl⟩
  · intro s hs
    rw [List.mem_append] at hs
    rcases hs with hs | hs
    · exact h.allNonempty s hs
    · rw [List.mem_singleton] at hs
      subst hs
      exact ⟨by simp [segFresh], by simp [segFresh]⟩
  · intro s hs
    rw [List.mem_append] at hs
    rcases hs with hs | hs
    · exact h.lastEntryPos s hs
    · rw [List.mem_singleton] at hs
      subst hs
      exact ⟨0, by simp [segFresh], rfl⟩
  · show some (nextOffset st) = _
    rw [hlast2]
    rfl
  · intro s hs
    rw [List.mem_append] at hs
    show s.base ≤ (some (nextOffset st)).getD 0
    simp only [Option.getD_some]
    rcases hs with hs | hs
    · have hle := h.basesLe s hs
      rw [hNK]
      omega
    · rw [List.mem_singleton] at hs
      subst hs
      exact Nat.le_refl _
  · refine ⟨0 + (metaDataSize + p.length), rfl, ?_, ?_⟩
    · rw [hlast2]
      have h1 : (segFresh st ts p).index.length = 1 := rfl
      rw [h1]
      omega
    · rw [hlast2, hls]
      omega
  · intro s hs
    rw [List.mem_append] at hs
    rcases hs with hs | hs
    · exact h.idxBound s hs
    · rw [List.mem_singleton] at hs
      subst hs
      have h1 : (segFresh st ts p).index.length = 1 := rfl
      rw [h1, hls]
      omega

/-- Auxiliary: one successful write from a well-formed state preserves the
invariant, advances `__last_offset` by one, and keeps the tunables. -/
theorem esWrite_step (st : ESState) (ts : Nat) (p : List Nat) (h : WfState st)
    (hlen : p.length ≤ maxMessageSize) (hfitp : metaDataSize + p.length ≤ st.maxLogSize) :
    ∃ st2, esWrite 2 st ts p = some (st2, none) ∧ WfState st2 ∧
      st2.lastOffset = some (lastOffVal st + 1) ∧
      st2.maxLogSize = st.maxLogSize ∧ st2.indexInterval = st.indexInterval := by
  have hp2 : ¬ p.length > maxMessageSize := Nat.not_lt.mpr hlen
  have hlast := lastSeg_getLast h.segsNe
  have hens := ensureLogSeg_id h
  have hfind : findSegD st.segs st.activeBase = lastSeg st := by
    unfold findSegD
    rw [h.activeLast, findSeg_last h.basesSorted hlast]
    rfl
  have hNK : nextOffset st = lastOffVal st + 1 := by
    unfold nextOffset lastOffVal
    rw [h.lastOff]
    rfl
  have hmemL : lastSeg st ∈ st.segs := by
    have harr := List.dropLast_append_getLast? (lastSeg st) (Option.mem_def.mpr hlast)
    rw [← harr]
    exact List.mem_append_right _ (List.mem_singleton_self _)
  obtain ⟨hRne, hIne⟩ := h.allNonempty _ hmemL
  obtain ⟨sVal, hsv, htrk1, htrk2⟩ := h.track
  have hdecomp : st.segs = st.segs.dropLast ++ [lastSeg st] :=
    (List.dropLast_append_getLast? (lastSeg st) (Option.mem_def.mpr hlast)).symm
  have hmemD : ∀ s ∈ st.segs.dropLast, s ∈ st.segs :=
    fun s hs => (List.dropLast_sublist st.segs).mem hs
  by_cases hov : logSize (lastSeg st) + (metaDataSize + p.length) > st.maxLogSize
  · -- rollover into a fresh segment
    have hov' : logSize (findSegD (ensureLogSeg st.segs st.activeBase) st.activeBase) +
        (metaDataSize + p.length) > st.maxLogSize := by
      rw [hens, hfind]
      exact hov
    have hlw1 : logWrite st.maxLogSize st.indexInterval st.segs st.activeBase
        st.lastIndexSize (nextOffset st) ts p =
        (st.segs, st.lastIndexSize, some .logSizeExceeded) := by
      rw [logWrite_lse hp2 hov', hens]
    have hfresh : findSeg st.segs (nextOffset st) = none := by
      apply List.find?_eq_none.mpr
      intro s hs
      simp only [beq_iff_eq]
      intro hcc
      have hle := h.basesLe s hs
      rw [hNK] at hcc
      omega
    have hfit0 : ¬ 0 + (metaDataSize + p.length) > st.maxLogSize := by omega
    have hlw2 : logWrite st.maxLogSize st.indexInterval st.segs (nextOffset st)
        none (nextOffset st) ts p =
        (st.segs ++ [segFresh st ts p],
         some (0 + (metaDataSize + p.length)), none) :=
      logWrite_ok_fresh hp2 hfresh hfit0
    have hstepB : esWrite 2 st ts p = some ({ st with
        logFiles := st.logFiles ++ [nextOffset st]
        activeBase := nextOffset st
        segs := st.segs ++ [segFresh st ts p]
        lastIndexSize := some (0 + (metaDataSize + p.length))
        lastOffset := some (nextOffset st) }, none) := by
      show esWriteGo 2 st (nextOffset st) ts p = _
      rw [@esWriteGo_lse _ _ _ _ 1 _ _ hlw1]
      exact @esWriteGo_ok (rollStep st (nextOffset st)) _ _ _ 0 _ _ hlw2
    refine ⟨_, hstepB, wf_roll_fresh st h hNK ts p, ?_, rfl, rfl⟩
    show some (nextOffset st) = some (lastOffVal st + 1)
    rw [hNK]
  · -- the record fits in the active segment
    have hupd : ∀ nI : Bool, updateSeg st.segs st.activeBase
        (fun _ => segAppend st ts p nI) = st.segs.dropLast ++ [segAppend st ts p nI] := by
      intro nI
      rw [h.activeLast]
      exact updateSeg_last h.basesSorted hlast _
    by_cases hni : logSize (lastSeg st) + (metaDataSize + p.length) > sVal + st.indexInterval
    · -- a new sparse index entry is due
      have hnI : (true : Bool) = (match st.lastIndexSize with
          | none => true
          | some s => decide (logSize (lastSeg st) + (metaDataSize + p.length) >
              s + st.indexInterval)) := by
        rw [hsv]
        exact (decide_eq_true hni).symm
      have hw2 : logWrite st.maxLogSize st.indexInterval st.segs st.activeBase
          st.lastIndexSize (nextOffset st) ts p =
          (updateSeg st.segs st.activeBase (fun _ => segAppend st ts p true),
           some (logSize (lastSeg st) + (metaDataSize + p.length)), none) :=
        @logWrite_ok_eq2 _ _ _ _ _ (nextOffset st) ts _ _ _ hp2 hens hfind hov hnI
      rw [hupd true] at hw2
      have hstep : esWrite 2 st ts p = some ({ st with
          segs := st.segs.dropLast ++ [segAppend st ts p true]
          lastIndexSize := some (logSize (lastSeg st) + (metaDataSize + p.length))
          lastOffset := some (nextOffset st) }, none) := by
        show esWriteGo 2 st (nextOffset st) ts p = _
        exact @esWriteGo_ok _ _ _ _ 1 _ _ hw2
      have hIlen : ∃ a, (lastSeg st).index.length = a + 1 := by
        cases hI : (lastSeg st).index with
        | nil => exact absurd hI hIne
        | cons x xs => exact ⟨xs.length, by simp⟩
      obtain ⟨a, ha⟩ := hIlen
      have htrk1' : metaDataSize + a * (st.indexInterval + 1) ≤ sVal := by
        rw [ha] at htrk1
        simpa using htrk1
      have hlen2 : (segAppend st ts p true).index.length = a + 2 := by
        have hidx : (segAppend st ts p true).index = (lastSeg st).index ++
            [(⟨nextOffset st - (lastSeg st).base, logSize (lastSeg st)⟩ : IndexEntry)] := rfl
        rw [hidx, List.length_append, ha]
        rfl
      have hwf := wf_append_active st h ts p true
        (some (logSize (lastSeg st) + (metaDataSize + p.length)))
        ⟨logSize (lastSeg st) + (metaDataSize + p.length), rfl, by
          rw [hlen2, show a + 2 - 1 = a + 1 from rfl, Nat.succ_mul]
          omega, le_of_eq rfl⟩
      refine ⟨_, hstep, hwf, ?_, rfl, rfl⟩
      show some (nextOffset st) = some (lastOffVal st + 1)
      rw [hNK]
    · -- the tracker is still fresh enough: no index entry
      have hnI : (false : Bool) = (match st.lastIndexSize with
          | none => true
          | some s => decide (logSize (lastSeg st) + (metaDataSize + p.length) >
              s + st.indexInterval)) := by
        rw [hsv]
        exact (decide_eq_false hni).symm
      have hw2 : logWrite st.maxLogSize st.indexInterval st.segs st.activeBase
          st.lastIndexSize (nextOffset st) ts p =
          (updateSeg st.segs st.activeBase (fun _ => segAppend st ts p false),
           st.lastIndexSize, none) :=
        @logWrite_ok_eq2 _ _ _ _ _ (nextOffset st) ts _ _ _ hp2 hens hfind hov hnI
      rw [hupd false] at hw2
      have hstep : esWrite 2 st ts p = some ({ st with
          segs := st.segs.dropLast ++ [segAppend st ts p false]
          lastIndexSize := st.lastIndexSize
          lastOffset := some (nextOffset st) }, none) := by
        show esWriteGo 2 st (nextOffset st) ts p = _
        exact @esWriteGo_ok _ _ _ _ 1 _ _ hw2
      have hwf := wf_append_active st h ts p false st.lastIndexSize
        ⟨sVal, hsv, by
          have hidx : (segAppend st ts p false).index = (lastSeg st).index := rfl
          rw [hidx]
          exact htrk1, le_trans htrk2 (Nat.le_add_right _ _)⟩
      refine ⟨_, hstep, hwf, ?_, rfl, rfl⟩
      show some (nextOffset st) = some (lastOffVal st + 1)
      rw [hNK]

/-- The state of an `EventSource` constructed over an empty directory
(`esOpen [] maxLog interval`). -/
def esFresh (maxLog interval : Nat) : ESState := ⟨maxLog, interval, none, [0], [], 0, none⟩

/-- Auxiliary: the very first write on a fresh store succeeds, creates
segment 0 and establishes the invariant with `__last_offset = 0`. -/
theorem esWrite_first (maxLog interval ts : Nat) (p : List Nat)
    (hlen : p.length ≤ maxMessageSize) (hfitp : metaDataSize + p.length ≤ maxLog) :
    ∃ st2, esWrite 2 (esFresh maxLog interval) ts p = some (st2, none) ∧ WfState st2 ∧
      st2.lastOffset = some 0 ∧ st2.maxLogSize = maxLog ∧ st2.indexInterval = interval := by
  have hp2 : ¬ p.length > maxMessageSize := Nat.not_lt.mpr hlen
  have hfit0 : ¬ 0 + (metaDataSize + p.length) > maxLog := by omega
  have hfresh : findSeg ([] : List Seg) 0 = none := rfl
  have hlw : logWrite maxLog interval [] 0 none 0 ts p =
      ([segFresh (esFresh maxLog interval) ts p],
       some (0 + (metaDataSize + p.length)), none) :=
    logWrite_ok_fresh hp2 hfresh hfit0
  have hstep : esWrite 2 (esFresh maxLog interval) ts p = some ({ esFresh maxLog interval with
      segs := [segFresh (esFresh maxLog interval) ts p]
      lastIndexSize := some (0 + (metaDataSize + p.length))
      lastOffset := some 0 }, none) := by
    show esWriteGo 2 (esFresh maxLog interval) (nextOffset (esFresh maxLog interval)) ts p = _
    exact @esWriteGo_ok (esFresh maxLog interval) _ _ _ 1 _ _ hlw
  have hls : logSize (segFresh (esFresh maxLog interval) ts p) =
      metaDataSize + p.length := by
    simp [segFresh, logSize, recSize, metaDataSize]
  refine ⟨_, hstep, ⟨?_, ?_, ?_, ?_, ?_, ?_, ?_, ?_, ?_, ?_⟩, rfl, rfl, rfl⟩
  · simp
  · show ([segFresh (esFresh maxLog interval) ts p].map Seg.base).Pairwise (· < ·)
    simp
  · rfl
  · intro s hs
    rw [List.mem_singleton] at hs
    subst hs
    exact ⟨rfl, rfl⟩
  · intro s hs
    rw [List.mem_singleton] at hs
    subst hs
    exact ⟨by simp [segFresh], by simp [segFresh]⟩
  · intro s hs
    rw [List.mem_singleton] at hs
    subst hs
    exact ⟨0, by simp [segFresh], rfl⟩
  · rfl
  · intro s hs
    rw [List.mem_singleton] at hs
    subst hs
    exact Nat.le_refl _
  · refine ⟨0 + (metaDataSize + p.length), rfl, ?_, ?_⟩
    · show metaDataSize +
        ((lastSeg { esFresh maxLog interval with
          segs := [segFresh (esFresh maxLog interval) ts p]
          lastIndexSize := some (0 + (metaDataSize + p.length))
          lastOffset := some 0 }).index.length - 1) * _ ≤ _
      have hl2 : lastSeg { esFresh maxLog interval with
          segs := [segFresh (esFresh maxLog interval) ts p]
          lastIndexSize := some (0 + (metaDataSize + p.length))
          lastOffset := some 0 } = segFresh (esFresh maxLog interval) ts p := rfl
      rw [hl2]
      have h1 : (segFresh (esFresh maxLog interval) ts p).index.length = 1 := rfl
      rw [h1]
      omega
    · show 0 + (metaDataSize + p.length) ≤
        logSize (lastSeg { esFresh maxLog interval with
          segs := [segFresh (esFresh maxLog interval) ts p]
          lastIndexSize := some (0 + (metaDataSize + p.length))
          lastOffset := some 0 })
      have hl2 : lastSeg { esFresh maxLog interval with
          segs := [segFresh (esFresh maxLog interval) ts p]
          lastIndexSize := some (0 + (metaDataSize + p.length))
          lastOffset := some 0 } = segFresh (esFresh maxLog interval) ts p := rfl
      rw [hl2, hls]
      omega
  · intro s hs
    rw [List.mem_singleton] at hs
    subst hs
    have h1 : (segFresh (esFresh maxLog interval) ts p).index.length = 1 := rfl
    rw [h1, hls]
    omega

/-- Auxiliary: a clean run of legal, fitting writes from a well-formed state
succeeds, preserves the invariant and advances `__last_offset` by the number
of writes. -/
theorem runWrites_wf (ws : List (Nat × List Nat)) :
    ∀ st : ESState, WfState st →
    (∀ w ∈ ws, w.2.length ≤ maxMessageSize ∧ metaDataSize + w.2.length ≤ st.maxLogSize) →
    ∃ st2, runWrites 2 st ws = some (st2, none) ∧ WfState st2 ∧
      st2.lastOffset = some (lastOffVal st + ws.length) ∧
      st2.maxLogSize = st.maxLogSize ∧ st2.indexInterval = st.indexInterval := by
  induction ws with
  | nil =>
    intro st h _
    refine ⟨st, rfl, h, ?_, rfl, rfl⟩
    show st.lastOffset = some (lastOffVal st + 0)
    unfold lastOffVal
    rw [h.lastOff]
    rfl
  | cons w rest ih =>
    intro st h hall
    obtain ⟨ts, p⟩ := w
    obtain ⟨hplen, hpfit⟩ := hall (ts, p) (List.mem_cons_self _ _)
    obtain ⟨st1, hw1, hwf1, hoff1, hml1, hii1⟩ := esWrite_step st ts p h hplen hpfit
    obtain ⟨st2, hrun, hwf2, hoff2, hml2, hii2⟩ := ih st1 hwf1
      (fun w hw => ⟨(hall w (List.mem_cons_of_mem _ hw)).1,
        hml1 ▸ (hall w (List.mem_cons_of_mem _ hw)).2⟩)
    have hchain : runWrites 2 st ((ts, p) :: rest) = runWrites 2 st1 rest := by
      show (match esWrite 2 st ts p with
        | some (st', none) => runWrites 2 st' rest
        | some (st', some e) => some (st', some e)
        | none => none) = runWrites 2 st1 rest
      rw [hw1]
    have hov1 : lastOffVal st1 = lastOffVal st + 1 := by
      unfold lastOffVal
      rw [hoff1]
      rfl
    refine ⟨st2, hchain.trans hrun, hwf2, ?_, hml2.trans hml1, hii2.trans hii1⟩
    rw [hoff2, hov1]
    show some (lastOffVal st + 1 + rest.length) = some (lastOffVal st + (rest.length + 1))
    rw [Nat.add_assoc, Nat.add_comm 1 rest.length]

/-- C7, confirmed.  For every non-empty clean run of writes on a fresh
store (each payload legal and fitting in `max_log_size`), the run succeeds,
the final `__last_offset` is the number of writes minus one, and re-opening
an `EventSource` over the resulting directory recovers exactly that last
offset (via the last sparse index entry of the highest-base segment and the
record-by-record walk of its `.log` file), so the next write would be
assigned one plus the last offset written before close. -/
theorem c7_recovery (maxLog interval ts0 : Nat) (p0 : List Nat)
    (ws : List (Nat × List Nat))
    (h0len : p0.length ≤ maxMessageSize) (h0fit : metaDataSize + p0.length ≤ maxLog)
    (hall : ∀ w ∈ ws, w.2.length ≤ maxMessageSize ∧ metaDataSize + w.2.length ≤ maxLog) :
    ∃ st2, runWrites 2 (esFresh maxLog interval) ((ts0, p0) :: ws) = some (st2, none) ∧
      st2.lastOffset = some ws.length ∧
      esOpen st2.segs maxLog interval =
        .ok ⟨maxLog, interval, some ws.length, [], st2.segs, (lastSeg st2).base, none⟩ ∧
      nextOffset ⟨maxLog, interval, some ws.length, [], st2.segs,
        (lastSeg st2).base, none⟩ = ws.length + 1 := by
  obtain ⟨st1, hw1, hwf1, hoff1, hml1, hii1⟩ :=
    esWrite_first maxLog interval ts0 p0 h0len h0fit
  obtain ⟨st2, hrun, hwf2, hoff2, hml2, hii2⟩ := runWrites_wf ws st1 hwf1
    (fun w hw => ⟨(hall w hw).1, hml1 ▸ (hall w hw).2⟩)
  have hchain : runWrites 2 (esFresh maxLog interval) ((ts0, p0) :: ws) =
      runWrites 2 st1 ws := by
    show (match esWrite 2 (esFresh maxLog interval) ts0 p0 with
      | some (st', none) => runWrites 2 st' ws
      | some (st', some e) => some (st', some e)
      | none => none) = runWrites 2 st1 ws
    rw [hw1]
  have hov1 : lastOffVal st1 = 0 := by
    unfold lastOffVal
    rw [hoff1]
    rfl
  have hoff2' : st2.lastOffset = some ws.length := by
    rw [hoff2, hov1, Nat.zero_add]
  have hopen := esOpen_recover st2 hwf2 maxLog interval
  rw [hoff2'] at hopen
  exact ⟨st2, hchain.trans hrun, hoff2', hopen, rfl⟩

/-- C7 witness: two writes on a fresh store end with `__last_offset = 1`,
and reopening recovers it, so the next offset is 2. -/
theorem c7_recovery_witness :
    (([7] : List Nat).length ≤ maxMessageSize ∧
      metaDataSize + ([7] : List Nat).length ≤ 1000) ∧
    ∃ st2, runWrites 2 (esFresh 1000 4096) [(10, [7]), (11, [8])] = some (st2, none) ∧
      st2.lastOffset = some 1 ∧
      esOpen st2.segs 1000 4096 =
        .ok ⟨1000, 4096, some 1, [], st2.segs, (lastSeg st2).base, none⟩ ∧
      nextOffset ⟨1000, 4096, some 1, [], st2.segs, (lastSeg st2).base, none⟩ = 2 :=
  ⟨⟨by decide, by decide⟩,
   c7_recovery 1000 4096 10 [7] [(11, [8])] (by decide) (by decide) (by decide)⟩

/-- C8, amended to a single session.  Within one session every clean run of
legal fitting writes on a fresh store keeps every segment's index file at
no more than `ceil(segment_log_size / index_interval) + 1` entries.  (Across
a close/re-open the bound fails — `c8_sparsity_counterexample` — because
re-opening resets `__last_index_size` to `None` and the next append always
writes an index entry.) -/
theorem c8_sparsity_amended (maxLog interval ts0 : Nat) (p0 : List Nat)
    (ws : List (Nat × List Nat)) (hI : 1 ≤ interval)
    (h0len : p0.length ≤ maxMessageSize) (h0fit : metaDataSize + p0.length ≤ maxLog)
    (hall : ∀ w ∈ ws, w.2.length ≤ maxMessageSize ∧ metaDataSize + w.2.length ≤ maxLog) :
    ∃ st2, runWrites 2 (esFresh maxLog interval) ((ts0, p0) :: ws) = some (st2, none) ∧
      ∀ s ∈ st2.segs, s.index.length ≤ indexBound s interval := by
  obtain ⟨st1, hw1, hwf1, hoff1, hml1, hii1⟩ :=
    esWrite_first maxLog interval ts0 p0 h0len h0fit
  obtain ⟨st2, hrun, hwf2, hoff2, hml2, hii2⟩ := runWrites_wf ws st1 hwf1
    (fun w hw => ⟨(hall w hw).1, hml1 ▸ (hall w hw).2⟩)
  have hchain : runWrites 2 (esFresh maxLog interval) ((ts0, p0) :: ws) =
      runWrites 2 st1 ws := by
    show (match esWrite 2 (esFresh maxLog interval) ts0 p0 with
      | some (st', none) => runWrites 2 st' ws
      | some (st', some e) => some (st', some e)
      | none => none) = runWrites 2 st1 ws
    rw [hw1]
  refine ⟨st2, hchain.trans hrun, ?_⟩
  intro s hs
  have hb := hwf2.idxBound s hs
  have hne := (hwf2.allNonempty s hs).2
  have hn1 : 0 < s.index.length := List.length_pos.mpr hne
  rw [hii2.trans hii1] at hb
  have h1 : (s.index.length - 1) * interval ≤ logSize s := by
    have hstep : (s.index.length - 1) * interval ≤
        (s.index.length - 1) * (interval + 1) :=
      Nat.mul_le_mul_left _ (Nat.le_succ _)
    omega
  have h2 : s.index.length - 1 ≤ logSize s / interval :=
    (Nat.le_div_iff_mul_le (by omega)).mpr h1
  have h3 : logSize s / interval ≤ (logSize s + interval - 1) / interval :=
    Nat.div_le_div_right (by omega)
  unfold indexBound
  omega

/-- C8 witness: the amended bound at a concrete two-write session. -/
theorem c8_sparsity_amended_witness :
    (1 ≤ 4096 ∧ ([7] : List Nat).length ≤ maxMessageSize ∧
      metaDataSize + ([7] : List Nat).length ≤ 1000) ∧
    ∃ st2, runWrites 2 (esFresh 1000 4096) [(10, [7]), (11, [8])] = some (st2, none) ∧
      ∀ s ∈ st2.segs, s.index.length ≤ indexBound s 4096 :=
  ⟨⟨by decide, by decide, by decide⟩,
   c8_sparsity_amended 1000 4096 10 [7] [(11, [8])] (by decide) (by decide)
     (by decide) (by decide)⟩

end PyDistributed
